import Mathlib

/-!
Shallow embedding of the SKC (Supplemental Kernel Commandline) parser and tree
query layer from `src/skc.c` / `src/include/linux/skc.h`, together with proofs
about the claims of the natural-language specification.

The C code works on a caller-owned, mutable, null-terminated character buffer
(`skc_data`) and a global arena of packed nodes (`skc_nodes`).  We model the
character buffer as a `List Char` in which positions past the end of the list
read as NUL (the parser only ever writes NUL terminators, and writing NUL at or
past the end of the list is a no-op that matches the implicit terminator), and
pointers into the buffer as `Nat` offsets.  The global parser state (buffer,
node arena, `last_parent` cursor, the `skc_data` null-ness) is threaded
explicitly through every function.
-/

namespace Skc

/-- NUL, the C string terminator. -/
def nulc : Char := Char.ofNat 0

/-- Byte read at offset `i` of the buffer; positions past the end read as NUL. -/
def chAt (buf : List Char) (i : Nat) : Char := buf.getD i nulc

/-- Null-terminated C string starting at offset `i` of the buffer. -/
def cstr (buf : List Char) (i : Nat) : List Char :=
  (buf.drop i).takeWhile (fun c => c ≠ nulc)

/-- Embeds `strlen` applied at offset `i` of the buffer. -/
def strlenAt (buf : List Char) (i : Nat) : Nat := (cstr buf i).length

/-- Embeds C `isspace` (default locale): space, \t, \n, \v, \f, \r. -/
def c_isspace (c : Char) : Bool :=
  c = ' ' || c = Char.ofNat 9 || c = Char.ofNat 10 || c = Char.ofNat 11 ||
  c = Char.ofNat 12 || c = Char.ofNat 13

/-- Embeds C `isalnum` for ASCII. -/
def c_isalnum (c : Char) : Bool :=
  (Char.ofNat 48 ≤ c && c ≤ Char.ofNat 57) ||
  (Char.ofNat 65 ≤ c && c ≤ Char.ofNat 90) ||
  (Char.ofNat 97 ≤ c && c ≤ Char.ofNat 122)

/-! Loops over the buffer are written with an explicit fuel argument (first
argument) so that they are structurally recursive and compute by kernel
reduction.  Each loop strictly advances its cursor, which never passes
`buf.length`, so `buf.length + 1` rounds of fuel always behave exactly like
the C loop; the wrappers supply that much. -/

/-- Fueled loop of `skip_spaces`.  The bound `i < buf.length` only serves to
justify the fuel: past the end `chAt` reads NUL, which is not a space, so the
C loop stops there as well. -/
def skip_spaces_f (buf : List Char) : Nat → Nat → Nat
  | 0, i => i
  | f + 1, i =>
    if i < buf.length ∧ c_isspace (chAt buf i) then skip_spaces_f buf f (i + 1) else i

/-- Embeds `skip_spaces` from `compat.h`: advance the cursor over whitespace. -/
def skip_spaces (buf : List Char) (i : Nat) : Nat :=
  skip_spaces_f buf (buf.length + 1) i

/-- Fueled loop of `strchr`. -/
def strchr_f (buf : List Char) (c : Char) : Nat → Nat → Option Nat
  | 0, _ => none
  | f + 1, i =>
    if i < buf.length then
      if chAt buf i = c then some i
      else if chAt buf i = nulc then none
      else strchr_f buf c f (i + 1)
    else none

/-- Embeds `strchr` for a non-NUL character `c`: offset of the first occurrence
of `c` at or after `i`, scanning no further than the NUL terminator. -/
def strchr (buf : List Char) (i : Nat) (c : Char) : Option Nat :=
  strchr_f buf c (buf.length + 1) i

/-- Fueled loop of `strpbrk`. -/
def strpbrk_f (buf : List Char) (accept : List Char) : Nat → Nat → Option Nat
  | 0, _ => none
  | f + 1, i =>
    if i < buf.length then
      if chAt buf i = nulc then none
      else if accept.contains (chAt buf i) then some i
      else strpbrk_f buf accept f (i + 1)
    else none

/-- Embeds `strpbrk`: offset of the first character at or after `i` that belongs
to `accept`, scanning no further than the NUL terminator. -/
def strpbrk (buf : List Char) (i : Nat) (accept : List Char) : Option Nat :=
  strpbrk_f buf accept (buf.length + 1) i

/-- Fueled loop of `find_ending_quotes`; each round moves the cursor to a
strictly larger position (`strchr` searches from `p + 1`), so the wrapper's
fuel is sufficient. -/
def find_ending_quotes_f (buf : List Char) (quotes : Char) : Nat → Nat → Option Nat
  | 0, _ => none
  | f + 1, p =>
    match strchr buf (p + 1) quotes with
    | none => none
    | some r =>
      if chAt buf (r - 1) = Char.ofNat 92 then find_ending_quotes_f buf quotes f r
      else some r

/-- Embeds `find_ending_quotes`: starting from the opening position `p`, find
the matching closing quote, skipping quotes preceded by a backslash.  Note the
search begins at `p + 1`, exactly as in the C `strchr(p + 1, quotes)`. -/
def find_ending_quotes (buf : List Char) (p : Nat) (quotes : Char) : Option Nat :=
  find_ending_quotes_f buf quotes (buf.length + 1) p

/-- Embeds `skip_comment`: move the cursor past the next newline, or to the end
of the string when there is none. -/
def skip_comment (buf : List Char) (p : Nat) : Nat :=
  match strchr buf p (Char.ofNat 10) with
  | none => p + strlenAt buf p
  | some r => r + 1

/-- Embeds `strim` from `compat.h`: writes a NUL terminator over the trailing
whitespace of the string at `s` and returns the updated buffer together with
the cursor advanced over the leading whitespace. -/
def strim (buf : List Char) (s : Nat) : List Char × Nat :=
  let sz := strlenAt buf s
  if sz = 0 then (buf, s)
  else
    let t := (((cstr buf s).reverse).takeWhile c_isspace).length
    let buf2 := buf.set (s + sz - t) nulc
    (buf2, skip_spaces buf2 s)

/-! ## Constants and the node arena (`src/include/linux/skc.h`) -/

def SKC_NODE_MAX : Nat := 512
def SKC_VALUE : Nat := 32768
def SKC_DATA_MAX : Nat := SKC_VALUE - 1
def SKC_KEYLEN_MAX : Nat := 256

/-- Modelled from the spec: `SKC_DEPTH_MAX` is referenced by
`skc_node_compose_key` but its definition is missing from the sources; the spec
calls `DEPTH_MAX` an implementation constant that is at least 16, so we fix it
at 16. -/
def SKC_DEPTH_MAX : Nat := 16

/-- Embeds `struct skc_node`: four 16-bit fields.  `next`, `child`, `parent`
hold node indices (0 is the none sentinel for `next`/`child`, `SKC_NODE_MAX`
the none sentinel for `parent`); `data` holds the payload offset with the
`SKC_VALUE` bit flagging a value node. -/
structure SkcNode where
  next : Nat
  child : Nat
  parent : Nat
  data : Nat
deriving Repr, DecidableEq, Inhabited

/-- Global state of the library: the character arena contents (`buf`), whether
`skc_data` is non-NULL (`dataSet`), `skc_data_size`, the populated prefix of
`skc_nodes` (`nodes`, whose length is `skc_node_num`), the `last_parent`
cursor, and a flag recording whether the `WARN_ON` in `skc_add_node` fired. -/
structure SkcState where
  buf : List Char
  dataSet : Bool
  dataSize : Nat
  nodes : List SkcNode
  lastParent : Option Nat
  warned : Bool
deriving Repr, DecidableEq, Inhabited

/-- State at program start: empty arena, `skc_data = NULL`. -/
def skcInitialState : SkcState :=
  { buf := [], dataSet := false, dataSize := 0, nodes := [], lastParent := none,
    warned := false }

/-- Read node `i` of the arena.  Out-of-range reads return the all-zero node
(the C arrays live in zero-initialised static storage); reachable states never
read out of range. -/
def nodeAt (st : SkcState) (i : Nat) : SkcNode := st.nodes.getD i default

/-- Update one field of node `i` in place. -/
def modifyNode (st : SkcState) (i : Nat) (f : SkcNode → SkcNode) : SkcState :=
  { st with nodes := st.nodes.set i (f (nodeAt st i)) }

/-- Embeds `skc_root_node`: NULL when `skc_data` is NULL, node 0 otherwise. -/
def skc_root_node (st : SkcState) : Option Nat :=
  if st.dataSet = false then none else some 0

/-- Embeds `skc_node_get_parent`. -/
def skc_node_get_parent (st : SkcState) (i : Nat) : Option Nat :=
  if (nodeAt st i).parent = SKC_NODE_MAX then none else some (nodeAt st i).parent

/-- Embeds `skc_node_get_child`. -/
def skc_node_get_child (st : SkcState) (i : Nat) : Option Nat :=
  if (nodeAt st i).child = 0 then none else some (nodeAt st i).child

/-- Embeds `skc_node_get_next`. -/
def skc_node_get_next (st : SkcState) (i : Nat) : Option Nat :=
  if (nodeAt st i).next = 0 then none else some (nodeAt st i).next

/-- Embeds `skc_node_get_data`: the payload string at offset `data & ~SKC_VALUE`
of the character arena.  (The C function warns and returns NULL when the offset
is at least `skc_data_size`; that guard only fires on corrupted arenas, which
the claims below never query.) -/
def skc_node_get_data (st : SkcState) (i : Nat) : List Char :=
  cstr st.buf ((nodeAt st i).data % SKC_VALUE)

/-- Embeds `skc_node_is_value`.  `data` is a 16-bit quantity, so the
`SKC_VALUE` (bit 15) flag is set exactly when `data ≥ SKC_VALUE`. -/
def skc_node_is_value (st : SkcState) (i : Nat) : Bool :=
  SKC_VALUE ≤ (nodeAt st i).data

/-- Embeds `skc_node_is_key`. -/
def skc_node_is_key (st : SkcState) (i : Nat) : Bool :=
  (nodeAt st i).data < SKC_VALUE

/-- Embeds `skc_node_is_leaf`: a key node without a child or whose child is a
value node. -/
def skc_node_is_leaf (st : SkcState) (i : Nat) : Bool :=
  skc_node_is_key st i &&
    ((nodeAt st i).child = 0 || skc_node_is_value st (nodeAt st i).child)

/-- Error results of the library, standing for the C return codes:
`parse` is `-EINVAL` as produced by `skc_parse_error` (message and byte
offset), `einval` the bare `-EINVAL` of `skc_node_compose_key`, and the rest
the corresponding negative errnos.  `fuelExhausted` is returned by the
embedding only when a loop runs out of fuel, which stands for non-termination
of the C loop; the fuel supplied by the wrappers below is always sufficient on
the states the C code can reach. -/
inductive SkcErr where
  | parse (msg : String) (pos : Nat)
  | einval
  | enomem
  | erange
  | ebusy
  | fuelExhausted
deriving Repr, DecidableEq

/-- Bitwise-or of a 16-bit quantity `x` with the flag (0 or `SKC_VALUE`),
written arithmetically: the flag is a single bit, so the or adds `SKC_VALUE`
exactly when the bit is not already set. -/
def setFlag (x flag : Nat) : Nat :=
  if flag = 0 then x else if SKC_VALUE ≤ x then x else x + SKC_VALUE

/-- Embeds `skc_add_node`.  Returns the updated state and the new node index,
or `none` when the arena is full or the data offset overflows the 15-bit field.
Note the C code claims the slot (increments `skc_node_num` and stores the
truncated offset) before the overflow check; on that branch the remaining
fields keep stale contents, which no caller ever reads — we store zeros. -/
def skc_add_node (st : SkcState) (dataOff : Nat) (flag : Nat) : SkcState × Option Nat :=
  if st.nodes.length = SKC_NODE_MAX then (st, none)
  else
    let idx := st.nodes.length
    if SKC_DATA_MAX ≤ dataOff then
      ({ st with nodes := st.nodes ++ [{ next := 0, child := 0, parent := 0,
                                         data := dataOff % 65536 }],
                 warned := true }, none)
    else
      ({ st with nodes := st.nodes ++ [{ next := 0, child := 0, parent := 0,
                                         data := setFlag (dataOff % 65536) flag }] },
       some idx)

/-- Embeds `skc_last_sibling`: follow the `next` chain to its end.  The first
argument is fuel; sibling chains of reachable arenas have strictly increasing
indices, so `SKC_NODE_MAX + 1` is always enough. -/
def skc_last_sibling (st : SkcState) : Nat → Nat → Nat
  | 0, i => i
  | f + 1, i =>
    match skc_node_get_next st i with
    | none => i
    | some j => skc_last_sibling st f j

/-- Embeds `skc_add_sibling`: append a node at the end of the current parent's
child chain (or of the top-level chain when there is no current parent). -/
def skc_add_sibling (st : SkcState) (dataOff flag : Nat) : SkcState × Option Nat :=
  let r := skc_add_node st dataOff flag
  match r with
  | (st1, none) => (st1, none)
  | (st1, some idx) =>
    match st1.lastParent with
    | none =>
      let st2 := modifyNode st1 idx (fun nd => { nd with parent := SKC_NODE_MAX })
      let sib := skc_last_sibling st2 (SKC_NODE_MAX + 1) 0
      (modifyNode st2 sib (fun nd => { nd with next := idx }), some idx)
    | some lp =>
      let st2 := modifyNode st1 idx (fun nd => { nd with parent := lp })
      if (nodeAt st2 lp).child = 0 then
        (modifyNode st2 lp (fun nd => { nd with child := idx }), some idx)
      else
        let sib := skc_last_sibling st2 (SKC_NODE_MAX + 1) (nodeAt st2 lp).child
        (modifyNode st2 sib (fun nd => { nd with next := idx }), some idx)

/-- Embeds `skc_add_child`: `skc_add_sibling`, then make the new node the
current parent. -/
def skc_add_child (st : SkcState) (dataOff flag : Nat) : SkcState × Option Nat :=
  match skc_add_sibling st dataOff flag with
  | (st1, none) => (st1, none)
  | (st1, some idx) => ({ st1 with lastParent := some idx }, some idx)

/-- Character class of key words: ASCII alphanumerics, `-` (45) and `_` (95). -/
def keychar (c : Char) : Bool := c_isalnum c || c = Char.ofNat 45 || c = Char.ofNat 95

/-- Embeds `skc_valid_keyword` on the NUL-free string handed to it: nonempty
and made of `keychar`s only. -/
def skc_valid_keyword (key : List Char) : Bool :=
  if key.headD nulc = nulc then false
  else (key.dropWhile keychar).headD nulc = nulc

/-- Embeds `find_match_node`: walk the sibling chain from `node` looking for a
payload string equal to `k`.  First argument is fuel (see `skc_last_sibling`).
Note the C code compares the payload of every node in the chain, value nodes
included. -/
def find_match_node (st : SkcState) (k : List Char) : Nat → Option Nat → Option Nat
  | _, none => none
  | 0, some _ => none
  | f + 1, some i =>
    if skc_node_get_data st i = k then some i
    else find_match_node st k f (skc_node_get_next st i)

/-! ## Parser (`src/skc.c`) -/

/-- Embeds `__skc_open_brace`: mark the current parent as awaiting a closing
brace by writing the `SKC_NODE_MAX` sentinel into its `next` field.  The C
code dereferences `last_parent` unconditionally; its callers always resolve a
key first, which sets `last_parent`. -/
def __skc_open_brace (st : SkcState) : SkcState :=
  match st.lastParent with
  | some lp => modifyNode st lp (fun nd => { nd with next := SKC_NODE_MAX })
  | none => st

/-- Ascent loop of `__skc_close_brace`: climb the parent chain until a node
still marked with the sentinel is found (it becomes the new current parent)
or the top is reached.  First argument is fuel; parents have strictly smaller
indices on reachable arenas. -/
def close_brace_ascend (st : SkcState) : Nat → Nat → Option Nat
  | 0, _ => none
  | f + 1, i =>
    match skc_node_get_parent st i with
    | none => none
    | some j =>
      if (nodeAt st j).next = SKC_NODE_MAX then some j
      else close_brace_ascend st f j

/-- Embeds `__skc_close_brace`. -/
def __skc_close_brace (st : SkcState) (p : Nat) : SkcState × Except SkcErr Unit :=
  match st.lastParent with
  | none => (st, .error (.parse "Unexpected closing brace" p))
  | some lp =>
    if (nodeAt st lp).next ≠ SKC_NODE_MAX then
      (st, .error (.parse "Unexpected closing brace" p))
    else
      let st1 := modifyNode st lp (fun nd => { nd with next := 0 })
      ({ st1 with lastParent := close_brace_ascend st1 (SKC_NODE_MAX + 1) lp }, .ok ())

/-- Value delimiters for the quoted-value check `strchr(",;\n#}", *p)`.  The C
`strchr` on a constant set also "finds" a NUL argument (it returns the set's
terminator), so NUL counts as a delimiter here. -/
def isValDelim (c : Char) : Bool :=
  c = ',' || c = ';' || c = Char.ofNat 10 || c = '#' || c = Char.ofNat 125 || c = nulc

/-- Comment-skipping loop at the head of `__skc_parse_value`:
`while (*v == '#') { v = skip_comment(v); v = skip_spaces(v); }`.
First argument is fuel; the cursor strictly advances each round. -/
def skip_comment_spaces (buf : List Char) : Nat → Nat → Nat
  | 0, v => v
  | f + 1, v =>
    if chAt buf v = '#' then
      skip_comment_spaces buf f (skip_spaces buf (skip_comment buf v))
    else v

/-- Common tail of `__skc_parse_value`:
`if (c == '#') { p = skip_comment(p); c = *p; }`. -/
def parse_value_tail (buf : List Char) (c : Char) (v p : Nat) : Char × Nat × Nat :=
  if c = '#' then
    let p1 := skip_comment buf p
    (chAt buf p1, v, p1)
  else (c, v, p)

/-- Embeds `__skc_parse_value`.  On success returns the delimiter character
`c`, the offset of the (now NUL-terminated) value string, and the cursor
`next` for the rest of the input, together with the mutated buffer. -/
def __skc_parse_value (st : SkcState) (v : Nat) : SkcState × Except SkcErr (Char × Nat × Nat) :=
  let v1 := skip_spaces st.buf v
  let v2 := skip_comment_spaces st.buf (st.buf.length + 1) v1
  if chAt st.buf v2 = Char.ofNat 34 ∨ chAt st.buf v2 = Char.ofNat 39 then
    let q := chAt st.buf v2
    let v3 := v2 + 1
    match find_ending_quotes st.buf v3 q with
    | none => (st, .error (.parse "No closing quotes" v3))
    | some p =>
      let buf1 := st.buf.set p nulc
      let p1 := skip_spaces buf1 (p + 1)
      if ¬ isValDelim (chAt buf1 p1) then
        ({ st with buf := buf1 }, .error (.parse "No delimiter for value" v3))
      else
        let c := chAt buf1 p1
        let buf2 := buf1.set p1 nulc
        let r := parse_value_tail buf2 c v3 (p1 + 1)
        ({ st with buf := buf2 }, .ok r)
  else
    match strpbrk st.buf v2 [',', ';', Char.ofNat 10, '#', Char.ofNat 125] with
    | none => (st, .error (.parse "No delimiter for value" v2))
    | some p =>
      let c := chAt st.buf p
      let buf1 := st.buf.set p nulc
      let (buf2, v4) := strim buf1 v2
      let r := parse_value_tail buf2 c v4 (p + 1)
      ({ st with buf := buf2 }, .ok r)

/-- Embeds `skc_parse_array`: parse `,`-separated values, appending a value
node for each, and finally clear the `next` field of the last one.  Returns
the terminating delimiter and the final cursor (the C code updates `*__v`).
First argument is fuel; the cursor strictly advances each round. -/
def skc_parse_array (st : SkcState) (v : Nat) : Nat → SkcState × Except SkcErr (Char × Nat)
  | 0 => (st, .error .fuelExhausted)
  | f + 1 =>
    match __skc_parse_value st v with
    | (st1, .error e) => (st1, .error e)
    | (st1, .ok (c, v1, next)) =>
      match skc_add_sibling st1 v1 SKC_VALUE with
      | (st2, none) => (st2, .error .enomem)
      | (st2, some idx) =>
        if c = ',' then skc_parse_array st2 next f
        else (modifyNode st2 idx (fun nd => { nd with next := 0 }), .ok (c, next))

/-- Embeds `__skc_add_key`: resolve one key word against the current parent's
child chain (or the top-level chain), descending into a match or appending a
new key node. -/
def __skc_add_key (st : SkcState) (k : Nat) : SkcState × Except SkcErr Unit :=
  let kstr := cstr st.buf k
  if ¬ skc_valid_keyword kstr then (st, .error (.parse "Invalid keyword" k))
  else if st.nodes.length = 0 then
    match skc_add_child st k 0 with
    | (st1, none) => (st1, .error .enomem)
    | (st1, some _) => (st1, .ok ())
  else
    let found :=
      match st.lastParent with
      | none => find_match_node st kstr (SKC_NODE_MAX + 1) (some 0)
      | some lp => find_match_node st kstr (SKC_NODE_MAX + 1) (skc_node_get_child st lp)
    match found with
    | some node => ({ st with lastParent := some node }, .ok ())
    | none =>
      match skc_add_child st k 0 with
      | (st1, none) => (st1, .error .enomem)
      | (st1, some _) => (st1, .ok ())

/-- Splitting loop of `__skc_parse_keys`: cut the dotted key at each `.` and
resolve each word.  First argument is fuel; the cursor strictly advances. -/
def skc_parse_keys_loop (st : SkcState) (k : Nat) : Nat → SkcState × Except SkcErr Unit
  | 0 => (st, .error .fuelExhausted)
  | f + 1 =>
    match strchr st.buf k '.' with
    | none => __skc_add_key st k
    | some p =>
      let st1 := { st with buf := st.buf.set p nulc }
      match __skc_add_key st1 k with
      | (st2, .ok _) => skc_parse_keys_loop st2 (p + 1) f
      | (st2, .error e) => (st2, .error e)

/-- Embeds `__skc_parse_keys`: trim the key, then resolve each dotted word. -/
def __skc_parse_keys (st : SkcState) (k : Nat) : SkcState × Except SkcErr Unit :=
  let bk := strim st.buf k
  skc_parse_keys_loop { st with buf := bk.1 } bk.2 (st.buf.length + 1)

/-- Embeds `skc_parse_kv`: handle `keys = value...`; returns the cursor after
the statement. -/
def skc_parse_kv (st : SkcState) (k : Nat) (v : Nat) : SkcState × Except SkcErr Nat :=
  let prevParent := st.lastParent
  match __skc_parse_keys st k with
  | (st1, .error e) => (st1, .error e)
  | (st1, .ok _) =>
    match __skc_parse_value st1 v with
    | (st2, .error e) => (st2, .error e)
    | (st2, .ok (c, v1, next)) =>
      match skc_add_sibling st2 v1 SKC_VALUE with
      | (st3, none) => (st3, .error .enomem)
      | (st3, some _) =>
        let step : SkcState × Except SkcErr (Char × Nat) :=
          if c = ',' then skc_parse_array st3 next (st3.buf.length + 1)
          else (st3, .ok (c, next))
        match step with
        | (st4, .error e) => (st4, .error e)
        | (st4, .ok (c2, next2)) =>
          let st5 := { st4 with lastParent := prevParent }
          if c2 = Char.ofNat 125 then
            match __skc_close_brace st5 (next2 - 1) with
            | (st6, .ok _) => (st6, .ok next2)
            | (st6, .error e) => (st6, .error e)
          else (st5, .ok next2)

/-- Embeds `skc_parse_key`: handle a value-less `keys ;` statement (possibly
empty); returns the cursor `n` for the rest of the input. -/
def skc_parse_key (st : SkcState) (k : Nat) (n : Nat) : SkcState × Except SkcErr Nat :=
  let prevParent := st.lastParent
  let bk := strim st.buf k
  let st1 := { st with buf := bk.1 }
  if chAt st1.buf bk.2 ≠ nulc then
    match __skc_parse_keys st1 bk.2 with
    | (st2, .error e) => (st2, .error e)
    | (st2, .ok _) => ({ st2 with lastParent := prevParent }, .ok n)
  else (st1, .ok n)

/-- Embeds `skc_open_brace`. -/
def skc_open_brace (st : SkcState) (k n : Nat) : SkcState × Except SkcErr Nat :=
  match __skc_parse_keys st k with
  | (st1, .error e) => (st1, .error e)
  | (st1, .ok _) => (__skc_open_brace st1, .ok n)

/-- Embeds `skc_close_brace`. -/
def skc_close_brace (st : SkcState) (k n : Nat) : SkcState × Except SkcErr Nat :=
  match skc_parse_key st k n with
  | (st1, .error e) => (st1, .error e)
  | (st1, .ok k1) =>
    match __skc_close_brace st1 (n - 1) with
    | (st2, .ok _) => (st2, .ok k1)
    | (st2, .error e) => (st2, .error e)

/-- Embeds `skc_verify_tree`: every node's `next` must not exceed the node
count; a leftover `SKC_NODE_MAX` sentinel means an unclosed brace. -/
def skc_verify_tree (st : SkcState) : SkcState × Except SkcErr Unit :=
  match (List.range st.nodes.length).find? (fun i => st.nodes.length < (nodeAt st i).next) with
  | some i => (st, .error (.parse "No closing brace" ((nodeAt st i).data % SKC_VALUE)))
  | none => (st, .ok ())

/-- Main loop of `skc_init`: find the next delimiter in `{}=;\n#`, overwrite it
with NUL and dispatch.  First argument counts remaining rounds; the cursor
strictly advances each round, so `buf.length + 2` rounds always suffice. -/
def skc_init_loop (st : SkcState) (p : Nat) : Nat → SkcState × Except SkcErr Unit
  | 0 => (st, .error .fuelExhausted)
  | f + 1 =>
    match strpbrk st.buf p [Char.ofNat 123, Char.ofNat 125, '=', ';', Char.ofNat 10, '#'] with
    | none =>
      let p1 := skip_spaces st.buf p
      if chAt st.buf p1 ≠ nulc then (st, .error (.parse "No delimiter" p1))
      else (st, .ok ())
    | some q =>
      let c := chAt st.buf q
      let st1 := { st with buf := st.buf.set q nulc }
      let q1 := q + 1
      let step : SkcState × Except SkcErr Nat :=
        if c = '=' then skc_parse_kv st1 p q1
        else if c = Char.ofNat 123 then skc_open_brace st1 p q1
        else if c = '#' then skc_parse_key st1 p (skip_comment st1.buf q1)
        else if c = Char.ofNat 125 then skc_close_brace st1 p q1
        else skc_parse_key st1 p q1
      match step with
      | (st2, .error e) => (st2, .error e)
      | (st2, .ok p2) => skc_init_loop st2 p2 f

/-- Embeds `skc_init`: the entry point of the parser.  Note that on failure
only `skc_data` and `skc_data_size` are reset; `skc_node_num` (the length of
`nodes`) and `last_parent` keep whatever the failed parse left behind. -/
def skc_init (st : SkcState) (buf : List Char) : SkcState × Except SkcErr Unit :=
  if st.dataSet then (st, .error .ebusy)
  else
    let len := strlenAt buf 0
    if SKC_DATA_MAX - 1 < len ∨ len = 0 then (st, .error .erange)
    else
      let st1 := { st with buf := buf, dataSet := true, dataSize := len + 1 }
      match skc_init_loop st1 0 (buf.length + 2) with
      | (st2, .error e) => ({ st2 with dataSet := false, dataSize := 0 }, .error e)
      | (st2, .ok _) =>
        match skc_verify_tree st2 with
        | (st3, .ok _) => (st3, .ok ())
        | (st3, .error e) => ({ st3 with dataSet := false, dataSize := 0 }, .error e)

/-! ## Tree query layer (`src/skc.c`) -/

/-- Embeds `strncmp(a, b, n) == 0`: the first `n` characters agree, treating
the end of either list as NUL. -/
def strncmp_eq : List Char → List Char → Nat → Bool
  | _, _, 0 => true
  | a, b, n + 1 =>
    if a.headD nulc ≠ b.headD nulc then false
    else if a.headD nulc = nulc then true
    else strncmp_eq a.tail b.tail n

/-- Embeds `skc_node_match_prefix` (named without the trailing word here): try
to consume the payload of node `i` from the front of `key`; on success return
the rest of the key (with a separating dot skipped). -/
def skc_node_match_pfx (st : SkcState) (i : Nat) (key : List Char) : Option (List Char) :=
  let p := skc_node_get_data st i
  if ¬ strncmp_eq key p p.length then none
  else
    let rest := key.drop p.length
    if rest.headD nulc = '.' then some (rest.drop 1)
    else if rest.headD nulc ≠ nulc then none
    else some rest

/-- Loop of `skc_node_find_child`, instrumented to also return the remaining
(unconsumed) part of the key.  First argument is fuel; when it runs out (which
stands for a diverging C loop on a cyclic arena) the result is `none`. -/
def skc_find_child_loop (st : SkcState) : Nat → Option Nat → List Char → Option Nat × List Char
  | 0, _, key => (none, key)
  | f + 1, node, key =>
    match node with
    | none => (none, key)
    | some i =>
      if ¬ skc_node_is_key st i then (some i, key)
      else
        match skc_node_match_pfx st i key with
        | none => skc_find_child_loop st f (skc_node_get_next st i) key
        | some key2 =>
          if key2.headD nulc ≠ nulc then skc_find_child_loop st f (skc_node_get_child st i) key2
          else (some i, key2)

/-- Starting node of the `skc_node_find_child` walk: the children of `parent`,
or the root when `parent` is `none`. -/
def find_child_start (st : SkcState) (parent : Option Nat) : Option Nat :=
  match parent with
  | some p => skc_node_get_child st p
  | none => skc_root_node st

/-- Embeds `skc_node_find_child`: resolve a dotted `key` starting from the
children of `parent` (or from the root when `parent` is `none`). -/
def skc_node_find_child (st : SkcState) (parent : Option Nat) (key : List Char) : Option Nat :=
  (skc_find_child_loop st (SKC_NODE_MAX + 1) (find_child_start st parent) key).1

/-- Embeds `skc_node_find_value`: returns the value string together with the
stored `*vnode` (the C out-parameter). -/
def skc_node_find_value (st : SkcState) (parent : Option Nat) (key : List Char) :
    Option (List Char × Option Nat) :=
  match skc_node_find_child st parent key with
  | none => none
  | some i =>
    if ¬ skc_node_is_key st i then none
    else
      match skc_node_get_child st i with
      | none => some ([], none)
      | some c =>
        if ¬ skc_node_is_value st c then none
        else some (skc_node_get_data st c, some c)

/-! ### `skc_node_compose_key` -/

/-- Overwrite bytes of `out` starting at `pos` with `s`, never growing `out`
(writes past the end are dropped, matching the caller's capacity contract). -/
def writeBytes (out : List Char) (pos : Nat) (s : List Char) : List Char :=
  out.take pos ++ s.take (out.length - pos) ++ out.drop (pos + s.length)

/-- Models one `snprintf(out + pos, cap, "%s", s)`: writes at most `cap - 1`
characters plus a NUL terminator and returns the full length of `s`. -/
def snprintf_cat (out : List Char) (pos : Nat) (cap : Nat) (s : List Char) : List Char × Nat :=
  if cap = 0 then (out, s.length)
  else (writeBytes out pos (s.take (cap - 1) ++ [nulc]), s.length)

/-- Ancestor-collecting loop of `skc_node_compose_key`, recursing on the
remaining stack budget instead of the C code's upward-counting `depth`: the C
loop stores `keys[depth++] = index` and fails with `-ERANGE` as soon as `depth`
reaches `SKC_DEPTH_MAX` (the index stored on the failing round is discarded),
so it performs at most `SKC_DEPTH_MAX - 1` effective pushes; the first argument
is that remaining budget, `SKC_DEPTH_MAX - 1 - depth`. -/
def skc_compose_collect (st : SkcState) : Nat → Option Nat → List Nat → Except SkcErr (List Nat)
  | _, none, ks => .ok ks
  | 0, some _, _ => .error .erange
  | rem + 1, some i, ks => skc_compose_collect st rem (skc_node_get_parent st i) (i :: ks)

/-- Emitting loop of `skc_node_compose_key`: print the collected payloads
root-first, joined by dots, into the caller's buffer, tracking the remaining
capacity exactly as the C code does (`if (ret > size) size = 0; else
{ size -= ret; buf += ret; }`), and summing the full lengths into `total`. -/
def skc_compose_emit (st : SkcState) : List Nat → List Char → Nat → Nat → Nat → Nat × List Char
  | [], out, _, _, total => (total, out)
  | i :: rest, out, pos, cap, total =>
    let s := skc_node_get_data st i ++ (if rest.isEmpty then [] else ['.'])
    let wr := snprintf_cat out pos cap s
    if cap < wr.2 then skc_compose_emit st rest wr.1 pos 0 (total + wr.2)
    else skc_compose_emit st rest wr.1 (pos + wr.2) (cap - wr.2) (total + wr.2)

/-- Embeds `skc_node_compose_key`: compose the full dotted key of `node` into
the caller's buffer `out` (whose length is the C `size` argument), returning
the total length of the key together with the written buffer. -/
def skc_node_compose_key (st : SkcState) (node : Option Nat) (out : List Char) :
    Except SkcErr (Nat × List Char) :=
  match node with
  | none => .error .einval
  | some i0 =>
    let i1 : Option Nat := if skc_node_is_value st i0 then skc_node_get_parent st i0 else some i0
    match skc_compose_collect st (SKC_DEPTH_MAX - 1) i1 [] with
    | .error e => .error e
    | .ok ks => .ok (skc_compose_emit st ks out 0 out.length 0)

/-! ### `skc_node_find_next_leaf` -/

/-- Ascent loop of `skc_node_find_next_leaf`:
`while (!node->next) { node = parent; if (node == root) return NULL; ... }`
followed by taking the sibling.  First argument is fuel (parents of reachable
arenas have strictly decreasing indices). -/
def next_leaf_ascend (st : SkcState) (root : Option Nat) : Nat → Nat → Option Nat
  | 0, _ => none
  | f + 1, i =>
    if (nodeAt st i).next ≠ 0 then skc_node_get_next st i
    else
      match skc_node_get_parent st i with
      | none => none
      | some j =>
        if root = some j then none
        else next_leaf_ascend st root f j

/-- Descent loop of `skc_node_find_next_leaf`:
`while (node && !skc_node_is_leaf(node)) node = skc_node_get_child(node);`.
First argument is fuel (children of reachable arenas have strictly increasing
indices). -/
def next_leaf_descend (st : SkcState) : Nat → Option Nat → Option Nat
  | 0, _ => none
  | _ + 1, none => none
  | f + 1, some i =>
    if skc_node_is_leaf st i then some i
    else next_leaf_descend st f (skc_node_get_child st i)

/-- Embeds `skc_node_find_next_leaf`: the next leaf (in pre-order) after
`node` inside the subtree of `root` (`none` means the whole tree). -/
def skc_node_find_next_leaf (st : SkcState) (root : Option Nat) (node : Option Nat) :
    Option Nat :=
  if st.dataSet = false then none
  else
    match node with
    | none =>
      let n0 : Option Nat := match root with | some r => some r | none => some 0
      next_leaf_descend st (SKC_NODE_MAX + 1) n0
    | some i =>
      if root = some i then none
      else next_leaf_descend st (SKC_NODE_MAX + 1) (next_leaf_ascend st root (SKC_NODE_MAX + 1) i)

/-- Embeds `skc_node_find_next_key_value`: advance the leaf cursor and return
the leaf's value string (the data of its first child, or the empty string when
it has none) together with the new cursor. -/
def skc_node_find_next_key_value (st : SkcState) (root : Option Nat) (leaf : Option Nat) :
    Option (List Char × Nat) :=
  match skc_node_find_next_leaf st root leaf with
  | none => none
  | some l =>
    if (nodeAt st l).child ≠ 0 then some (skc_node_get_data st (nodeAt st l).child, l)
    else some ([], l)

/-! ## Concrete parsed states used by the theorems -/

/-- Arena parsed from `a = x; a.b = 1;` (a key that holds a value and later
gains a subkey). -/
def exMixed : SkcState := (skc_init skcInitialState ("a = x; a.b = 1;".data)).1

/-- Arena parsed from `a.b.c = 1; a.b.d = 2;` (dotted-key merging). -/
def exMerge : SkcState := (skc_init skcInitialState ("a.b.c = 1; a.b.d = 2;".data)).1

/-- Arena parsed from `a = b; a.b.c = 1;` (a value whose string collides with
a key word). -/
def exValKey : SkcState := (skc_init skcInitialState ("a = b; a.b.c = 1;".data)).1

/-- Arena parsed from `a.b = 1;`. -/
def exAB : SkcState := (skc_init skcInitialState ("a.b = 1;".data)).1

/-- State left behind by the failing parse of `x=1;}`. -/
def exFail : SkcState := (skc_init skcInitialState ("x=1;\x7d".data)).1

/-- Arena parsed from `k = ;` (empty bare value). -/
def exEmptyVal : SkcState := (skc_init skcInitialState ("k = ;".data)).1

/-- Arena parsed from `foo.bar = "baz";`. -/
def exFooBar : SkcState := (skc_init skcInitialState ("foo.bar = \"baz\";".data)).1

/-- Arena parsed from `a { b = 1; c = 2; }`. -/
def exBrace : SkcState := (skc_init skcInitialState ("a { b = 1; c = 2; }".data)).1

/-- List of the sibling-chain indices starting at `start` (fuel-bounded; on
reachable arenas the indices strictly increase, so `SKC_NODE_MAX + 1` rounds
of fuel enumerate any chain completely). -/
def chainList (st : SkcState) : Nat → Option Nat → List Nat
  | _, none => []
  | 0, some _ => []
  | f + 1, some i => i :: chainList st f (skc_node_get_next st i)

/-- Follows the amended C2 claim, written from the spec's words with the one
correction the counterexample forces ("a key node whose payload is
string-equal" becomes "a node of either kind whose payload is string-equal"):
to resolve one key word, first check its validity, then search the current
parent's child chain — the top-level sibling chain when there is no current
parent — for a node whose payload is string-equal to the word; descend into it
when found, and otherwise append a new key node as the last sibling of that
chain and descend into it. -/
def resolve_key_spec (st : SkcState) (k : Nat) : SkcState × Except SkcErr Unit :=
  let kstr := cstr st.buf k
  if ¬ skc_valid_keyword kstr then (st, .error (.parse "Invalid keyword" k))
  else
    let chain : Option Nat :=
      match st.lastParent with
      | none => if st.nodes.length = 0 then none else some 0
      | some lp => skc_node_get_child st lp
    match (chainList st (SKC_NODE_MAX + 1) chain).find?
            (fun i => skc_node_get_data st i = kstr) with
    | some i => ({ st with lastParent := some i }, .ok ())
    | none =>
      match skc_add_child st k 0 with
      | (st1, none) => (st1, .error .enomem)
      | (st1, some _) => (st1, .ok ())

/-- Parent chain of node `i`, root first, `i` last; the first argument is
fuel.  On arenas whose parent indices strictly decrease, fuel `i` already
enumerates the whole chain. -/
def pcf (st : SkcState) : Nat → Nat → List Nat
  | 0, i => [i]
  | f + 1, i =>
    match skc_node_get_parent st i with
    | none => [i]
    | some j => pcf st f j ++ [i]

/-- Parent chain of node `i` with its canonical fuel. -/
def parent_chain (st : SkcState) (i : Nat) : List Nat := pcf st i i

/-- Every node of the arena is a root or has a parent of strictly smaller
index — true of every arena the parser builds, because a node's parent is
always a node that was added earlier. -/
def parents_decreasing (st : SkcState) : Bool :=
  (List.range st.nodes.length).all (fun i =>
    (nodeAt st i).parent = SKC_NODE_MAX || (nodeAt st i).parent < i)

/-- Payload strings of a list of nodes. -/
def key_words (st : SkcState) (ks : List Nat) : List (List Char) :=
  ks.map (skc_node_get_data st)

/-- Join words with `.` separators (the shape `skc_node_compose_key` prints). -/
def join_dots : List (List Char) → List Char
  | [] => []
  | [w] => w
  | w :: ws => w ++ '.' :: join_dots ws

/-- A node arena is ordered when every `parent` link is the sentinel or goes
strictly down, every `child`/`next` link is 0 or goes strictly up while staying
in bounds, `child` links are parent-coherent, and siblings share their parent
and their kind. -/
def arena_ordered (st : SkcState) : Prop :=
  st.nodes.length ≤ SKC_NODE_MAX ∧
  ∀ i, i < st.nodes.length →
    ((nodeAt st i).parent = SKC_NODE_MAX ∨ (nodeAt st i).parent < i) ∧
    ((nodeAt st i).child = 0 ∨
      (i < (nodeAt st i).child ∧ (nodeAt st i).child < st.nodes.length ∧
        (nodeAt st (nodeAt st i).child).parent = i)) ∧
    ((nodeAt st i).next = 0 ∨
      (i < (nodeAt st i).next ∧ (nodeAt st i).next < st.nodes.length ∧
        (nodeAt st (nodeAt st i).next).parent = (nodeAt st i).parent ∧
        skc_node_is_key st (nodeAt st i).next = skc_node_is_key st i))

instance (st : SkcState) : Decidable (arena_ordered st) := by
  unfold arena_ordered
  infer_instance

/-- Leaves of the subtree rooted at `i`, in pre-order (fuel-bounded). -/
def subtree_leaves_f (st : SkcState) : Nat → Nat → List Nat
  | 0, _ => []
  | f + 1, i =>
    if skc_node_is_leaf st i then [i]
    else (chainList st f (skc_node_get_child st i)).flatMap (fun m => subtree_leaves_f st f m)

/-- Leaves of the subtree rooted at `i`, in pre-order. -/
def subtree_leaves (st : SkcState) (i : Nat) : List Nat :=
  subtree_leaves_f st (SKC_NODE_MAX + 1) i

/-- The pre-order leaf list of the traversal `skc_node_find_next_leaf`
enumerates: the subtree of `root`, or the whole forest when `root` is none. -/
def preorder_leaves (st : SkcState) : Option Nat → List Nat
  | some r => subtree_leaves st r
  | none => (chainList st (SKC_NODE_MAX + 1) (some 0)).flatMap (fun m => subtree_leaves st m)

/-- The element following the first occurrence of `x` in `L` (none when `x` is
last or absent). -/
def nextInList (L : List Nat) (x : Nat) : Option Nat :=
  match L.dropWhile (fun z => z != x) with
  | _ :: y :: _ => some y
  | _ => none

/-- The list is exactly the sibling chain starting at `o`. -/
def is_chain (st : SkcState) : Option Nat → List Nat → Prop
  | o, [] => o = none
  | o, m :: rest => o = some m ∧ is_chain st (skc_node_get_next st m) rest

/-- Follows the amended C6 claim, written from the spec's words: resolve a
dotted key one segment at a time.  Scan the current sibling chain for the
first node that either is not a key or consumes the next part of the key; if
the scan falls off the chain without a match, the lookup returns none; if it
lands on a value node, the lookup returns that value node; if the matched key
node consumed the entire dotted key, the lookup returns that key node;
otherwise descend into its child chain with the remaining key. -/
def find_child_spec (st : SkcState) : Nat → Option Nat → List Char → Option Nat
  | 0, _, _ => none
  | f + 1, chain, key =>
    match (chainList st (SKC_NODE_MAX + 1) chain).find?
        (fun i => !skc_node_is_key st i || (skc_node_match_pfx st i key).isSome) with
    | none => none
    | some i =>
      if ¬ skc_node_is_key st i then some i
      else
        match skc_node_match_pfx st i key with
        | none => none
        | some key2 =>
          if key2.headD nulc ≠ nulc then
            find_child_spec st f (skc_node_get_child st i) key2
          else some i

theorem strchr_f_bounds {buf : List Char} {c : Char} :
    ∀ {n i r : Nat}, strchr_f buf c n i = some r → i ≤ r ∧ r < buf.length := by
  intro n
  induction n with
  | zero => intro i r h; simp [strchr_f] at h
  | succ n ih =>
    intro i r h
    rw [strchr_f] at h
    split at h
    case isTrue hi =>
      split at h
      case isTrue h1 =>
        cases h
        exact ⟨Nat.le_refl i, hi⟩
      case isFalse h1 =>
        split at h
        case isTrue h2 => exact absurd h (by simp)
        case isFalse h2 =>
          have := ih h
          omega
    case isFalse hi => exact absurd h (by simp)

theorem strchr_bounds {buf : List Char} {c : Char} {i r : Nat}
    (h : strchr buf i c = some r) : i ≤ r ∧ r < buf.length :=
  strchr_f_bounds h

theorem strpbrk_f_bounds {buf : List Char} {accept : List Char} :
    ∀ {n i r : Nat}, strpbrk_f buf accept n i = some r → i ≤ r ∧ r < buf.length := by
  intro n
  induction n with
  | zero => intro i r h; simp [strpbrk_f] at h
  | succ n ih =>
    intro i r h
    rw [strpbrk_f] at h
    split at h
    case isTrue hi =>
      split at h
      case isTrue h1 => exact absurd h (by simp)
      case isFalse h1 =>
        split at h
        case isTrue h2 =>
          cases h
          exact ⟨Nat.le_refl i, hi⟩
        case isFalse h2 =>
          have := ih h
          omega
    case isFalse hi => exact absurd h (by simp)

theorem strpbrk_bounds {buf : List Char} {accept : List Char} {i r : Nat}
    (h : strpbrk buf i accept = some r) : i ≤ r ∧ r < buf.length :=
  strpbrk_f_bounds h

/-! ## Claim C1 -/

/-- C1: the claimed well-formedness invariant fails on the code.  The input
`a = x; a.b = 1;` is accepted, yet the value node `x` (node 1) gets the key
node `b` (node 2) as its `next` sibling — a `next` link between nodes of
different kinds, inside the value chain under the leaf key `a` — because
`skc_add_sibling` appends the new key at the end of `a`'s child chain, whose
last element is the value.  This also contradicts the header comment of
`skc.c` ("A value node may have a next value node (for array)"). -/
theorem c1_mixed_next_chain :
    (skc_init skcInitialState ("a = x; a.b = 1;".data)).2 = .ok () ∧
    skc_node_is_value exMixed 1 = true ∧
    skc_node_get_data exMixed 1 = "x".data ∧
    skc_node_get_next exMixed 1 = some 2 ∧
    skc_node_is_key exMixed 2 = true ∧
    skc_node_get_data exMixed 2 = "b".data ∧
    skc_node_is_leaf exMixed 0 = true ∧
    skc_node_get_child exMixed 0 = some 1 := by
  exact ⟨rfl, rfl, rfl, rfl, rfl, rfl, rfl, rfl⟩

/-! ## Claim C4 -/

/-- C4: on a failed parse the code clears `skc_data` (so a retry is not
rejected with Busy) but does not reset `skc_node_num` or `last_parent`; the
claim's "node_count is reset … observes no leftover nodes" fails.  The failing
parse of `x=1;}` leaves 2 nodes behind; retrying with `y=2;` succeeds but
builds on top of the stale nodes (3 nodes total, and the stale node is even
taken for the key `y` because its payload offset now points into the new
buffer), unlike a fresh first parse of `y=2;` (2 nodes). -/
theorem c4_no_node_reset :
    (skc_init skcInitialState ("x=1;\x7d".data)).2 =
      .error (.parse "Unexpected closing brace" 4) ∧
    exFail.dataSet = false ∧
    exFail.nodes.length = 2 ∧
    (skc_init exFail ("y=2;".data)).2 = .ok () ∧
    (skc_init exFail ("y=2;".data)).1.nodes.length = 3 ∧
    (skc_init skcInitialState ("y=2;".data)).1.nodes.length = 2 := by
  exact ⟨rfl, rfl, rfl, rfl, rfl, rfl⟩

/-! ## Claim C5 -/

/-- C5: counterexample to the claim as stated — the empty bare value `k = ;`
does not fail with NoDelimiter; the parse succeeds. -/
theorem c5_empty_value_accepted :
    (skc_init skcInitialState ("k = ;".data)).2 = .ok () := by
  exact rfl

/-- C5 (amended): an empty bare value is accepted — `k = ;` parses
successfully and attaches the empty string as the value of `k`, and
`k = ,;` likewise yields a chain of two empty values; the NoDelimiter error
is raised only when no terminator follows the value at all (as in `k = ` at
end of input). -/
theorem c5_amended :
    (skc_init skcInitialState ("k = ;".data)).2 = .ok () ∧
    skc_node_find_value exEmptyVal none ("k".data) = some ([], some 1) ∧
    (skc_init skcInitialState ("k = ,;".data)).2 = .ok () ∧
    ((skc_init skcInitialState ("k = ,;".data)).1.nodes.map SkcNode.data) =
      [0, 32772, 32773] ∧
    (skc_init skcInitialState ("k = ".data)).2 =
      .error (.parse "No delimiter for value" 4) := by
  exact ⟨rfl, rfl, rfl, rfl, rfl⟩

/-! ## Claim C2 -/

theorem find_match_node_eq_chain (st : SkcState) (k : List Char) :
    ∀ (fuel : Nat) (start : Option Nat),
      find_match_node st k fuel start =
        (chainList st fuel start).find? (fun i => skc_node_get_data st i = k) := by
  intro fuel
  induction fuel with
  | zero => intro start; cases start <;> rfl
  | succ f ih =>
    intro start
    cases start with
    | none => rfl
    | some i =>
      rw [find_match_node, chainList, List.find?]
      by_cases h : skc_node_get_data st i = k
      · simp [h]
      · simp [h, ih]

/-- C2: counterexample to the general resolution rule as stated.  On
`a = b; a.b.c = 1;` the code accepts the input, but resolving the segment `b`
of `a.b.c` matches the *value* node `b` (the C `find_match_node` compares the
payload of every chain node, value nodes included) and descends into it, so no
key node `b` is ever created — the final arena's only key nodes are `a` and
`c`, and `c`'s parent is the value node — contradicting the claim that each
segment either matches a key node or appends a new key node. -/
theorem c2_value_node_matched :
    (skc_init skcInitialState ("a = b; a.b.c = 1;".data)).2 = .ok () ∧
    exValKey.nodes.length = 4 ∧
    skc_node_is_key exValKey 0 = true ∧
    skc_node_get_data exValKey 0 = "a".data ∧
    skc_node_is_value exValKey 1 = true ∧
    skc_node_get_data exValKey 1 = "b".data ∧
    skc_node_get_child exValKey 1 = some 2 ∧
    skc_node_is_key exValKey 2 = true ∧
    skc_node_get_data exValKey 2 = "c".data ∧
    (nodeAt exValKey 2).parent = 1 ∧
    skc_node_is_value exValKey 3 = true := by
  exact ⟨rfl, rfl, rfl, rfl, rfl, rfl, rfl, rfl, rfl, rfl, rfl⟩

/-- C2 (amended): parsing `a.b.c = 1; a.b.d = 2;` merges the shared dotted
prefix — the top level holds the single key `a`, whose single child is the key
`b`, whose children are the keys `c` and `d` in insertion order — and in
general `__skc_add_key` resolves each segment by searching the current
parent's child chain for a node of either kind whose payload is string-equal
to the segment, descending into it when found and otherwise appending a new
key node as the last sibling of that chain and descending
(`resolve_key_spec`). -/
theorem c2_amended :
    ((skc_init skcInitialState ("a.b.c = 1; a.b.d = 2;".data)).2 = .ok () ∧
     chainList exMerge (SKC_NODE_MAX + 1) (skc_root_node exMerge) = [0] ∧
     skc_node_is_key exMerge 0 = true ∧
     skc_node_get_data exMerge 0 = "a".data ∧
     chainList exMerge (SKC_NODE_MAX + 1) (skc_node_get_child exMerge 0) = [1] ∧
     skc_node_is_key exMerge 1 = true ∧
     skc_node_get_data exMerge 1 = "b".data ∧
     chainList exMerge (SKC_NODE_MAX + 1) (skc_node_get_child exMerge 1) = [2, 4] ∧
     skc_node_is_key exMerge 2 = true ∧
     skc_node_get_data exMerge 2 = "c".data ∧
     skc_node_is_key exMerge 4 = true ∧
     skc_node_get_data exMerge 4 = "d".data) ∧
    ∀ (st : SkcState) (k : Nat), __skc_add_key st k = resolve_key_spec st k := by
  constructor
  · exact ⟨rfl, rfl, rfl, rfl, rfl, rfl, rfl, rfl, rfl, rfl, rfl, rfl⟩
  · intro st k
    unfold __skc_add_key resolve_key_spec
    by_cases hv : skc_valid_keyword (cstr st.buf k)
    · simp only [hv, not_true, if_false, ite_false]
      by_cases h0 : st.nodes.length = 0
      · have hnil : st.nodes = [] := List.length_eq_zero.mp h0
        cases hlp : st.lastParent with
        | none => simp [h0, hlp, chainList]
        | some lp =>
          have hchild : skc_node_get_child st lp = none := by
            simp [skc_node_get_child, nodeAt, hnil]
            rfl
          simp [h0, hlp, hchild, chainList]
      · simp only [h0, if_false, ite_false]
        cases hlp : st.lastParent with
        | none =>
          rw [find_match_node_eq_chain]
        | some lp =>
          simp only [find_match_node_eq_chain]
    · simp [hv]

/-- C2 witness: the general part of `c2_amended` evaluated on a concrete
state — resolving the existing word `a` on `exMerge` (with no current parent)
descends into node 0. -/
theorem c2_amended_witness :
    __skc_add_key { exMerge with lastParent := none } 0 =
      ({ exMerge with lastParent := some 0 }, .ok ()) := by
  rw [c2_amended.2 { exMerge with lastParent := none } 0]
  exact rfl

/-! ## Claim C3 -/

/-- C3: counterexample to the claim as stated.  On `a.b = 1;` the lookup of
`a` finds the key node `a`, which has no value child (its child is the key
`b`), yet `skc_node_find_value` returns none — not the empty string the claim
promises for "a key with no value child" (the code reserves the empty-string
result for a key with no child at all). -/
theorem c3_key_child_gives_none :
    skc_node_find_child exAB none ("a".data) = some 0 ∧
    skc_node_is_key exAB 0 = true ∧
    skc_node_get_child exAB 0 = some 1 ∧
    skc_node_is_key exAB 1 = true ∧
    skc_node_find_value exAB none ("a".data) = none := by
  exact ⟨rfl, rfl, rfl, rfl, rfl⟩

/-- C3 (amended): `skc_node_find_value(parent, key)` runs the child lookup;
when the looked-up node is a key with a value child it returns that value's
string and stores the value node; when it is a key with *no child at all* it
returns the empty string and stores none; in every other case — no node found,
a value node found, or a key found whose child is a key node — it returns
none. -/
theorem c3_amended (st : SkcState) (parent : Option Nat) (key : List Char) :
    (∀ i, skc_node_find_child st parent key = some i → skc_node_is_key st i = true →
      ((nodeAt st i).child = 0 → skc_node_find_value st parent key = some ([], none)) ∧
      (∀ c, skc_node_get_child st i = some c → skc_node_is_value st c = true →
        skc_node_find_value st parent key = some (skc_node_get_data st c, some c)) ∧
      (∀ c, skc_node_get_child st i = some c → skc_node_is_value st c = false →
        skc_node_find_value st parent key = none)) ∧
    (skc_node_find_child st parent key = none → skc_node_find_value st parent key = none) ∧
    (∀ i, skc_node_find_child st parent key = some i → skc_node_is_key st i = false →
      skc_node_find_value st parent key = none) := by
  refine ⟨?_, ?_, ?_⟩
  · intro i hfc hk
    refine ⟨?_, ?_, ?_⟩
    · intro hc0
      have hgc : skc_node_get_child st i = none := by simp [skc_node_get_child, hc0]
      unfold skc_node_find_value
      rw [hfc]
      simp [hk, hgc]
    · intro c hgc hv
      unfold skc_node_find_value
      rw [hfc]
      simp [hk, hgc, hv]
    · intro c hgc hv
      unfold skc_node_find_value
      rw [hfc]
      simp [hk, hgc, hv]
  · intro hfc
    unfold skc_node_find_value
    rw [hfc]
  · intro i hfc hk
    unfold skc_node_find_value
    rw [hfc]
    simp [hk]

/-- C3 witness: the value case of `c3_amended` evaluated on the tree of
`a.b = 1;` — looking up `a.b` yields the value `1`. -/
theorem c3_amended_witness :
    skc_node_find_value exAB none ("a.b".data) = some ("1".data, some 2) :=
  ((c3_amended exAB none ("a.b".data)).1 1 rfl rfl).2.1 2 rfl rfl

/-! ## Claim C6 -/

/-- Every node is either a key or a value: bit 15 of `data` is set or not. -/
theorem is_key_or_value (st : SkcState) (i : Nat) :
    skc_node_is_key st i = false → skc_node_is_value st i = true := by
  simp [skc_node_is_key, skc_node_is_value]

/-- When the `skc_node_find_child` walk stops at a key node, the whole key has
been consumed: the remaining part tracked by the instrumented loop starts with
the terminator. -/
theorem find_child_loop_key_consumed (st : SkcState) :
    ∀ (fuel : Nat) (node : Option Nat) (key : List Char) (i : Nat),
      (skc_find_child_loop st fuel node key).1 = some i →
      skc_node_is_key st i = true →
      ((skc_find_child_loop st fuel node key).2).headD nulc = nulc := by
  intro fuel
  induction fuel with
  | zero => intro node key i h _; simp [skc_find_child_loop] at h
  | succ f ih =>
    intro node key i h hk
    cases node with
    | none => simp [skc_find_child_loop] at h
    | some j =>
      rw [skc_find_child_loop] at h ⊢
      by_cases hkj : skc_node_is_key st j = true
      · simp only [hkj, not_true, Bool.not_eq_true, if_false, ite_false] at h ⊢
        cases hm : skc_node_match_pfx st j key with
        | none =>
          rw [hm] at h
          exact ih _ _ i h hk
        | some key2 =>
          rw [hm] at h
          by_cases h2 : key2.headD nulc ≠ nulc
          · have h3 : (if key2.headD nulc ≠ nulc then
                skc_find_child_loop st f (skc_node_get_child st j) key2
                else (some j, key2)).1 = some i := h
            rw [if_pos h2] at h3
            show (if key2.headD nulc ≠ nulc then
                skc_find_child_loop st f (skc_node_get_child st j) key2
                else (some j, key2)).2.headD nulc = nulc
            rw [if_pos h2]
            exact ih _ _ i h3 hk
          · show (if key2.headD nulc ≠ nulc then
                skc_find_child_loop st f (skc_node_get_child st j) key2
                else (some j, key2)).2.headD nulc = nulc
            rw [if_neg h2]
            simpa using not_not.mp h2
      · have hkj2 : skc_node_is_key st j = false := by
          cases hj : skc_node_is_key st j
          · rfl
          · exact absurd hj hkj
        simp only [hkj2] at h ⊢
        simp at h ⊢
        subst h
        simp [hkj2] at hk

theorem ao_parent {st : SkcState} {i : Nat} (h : arena_ordered st)
    (hi : i < st.nodes.length) :
    (nodeAt st i).parent = SKC_NODE_MAX ∨ (nodeAt st i).parent < i :=
  (h.2 i hi).1

theorem ao_child {st : SkcState} {i : Nat} (h : arena_ordered st)
    (hi : i < st.nodes.length) (hc : (nodeAt st i).child ≠ 0) :
    i < (nodeAt st i).child ∧ (nodeAt st i).child < st.nodes.length ∧
      (nodeAt st (nodeAt st i).child).parent = i := by
  rcases (h.2 i hi).2.1 with h0 | h1
  · exact absurd h0 hc
  · exact h1

theorem ao_next {st : SkcState} {i : Nat} (h : arena_ordered st)
    (hi : i < st.nodes.length) (hn : (nodeAt st i).next ≠ 0) :
    i < (nodeAt st i).next ∧ (nodeAt st i).next < st.nodes.length ∧
      (nodeAt st (nodeAt st i).next).parent = (nodeAt st i).parent ∧
      skc_node_is_key st (nodeAt st i).next = skc_node_is_key st i := by
  rcases (h.2 i hi).2.2 with h0 | h1
  · exact absurd h0 hn
  · exact h1

theorem chain_invariants {st : SkcState} (h : arena_ordered st) :
    ∀ (f : Nat) {i : Nat}, i < st.nodes.length →
      ∀ m ∈ chainList st f (some i),
        i ≤ m ∧ m < st.nodes.length ∧
          (nodeAt st m).parent = (nodeAt st i).parent ∧
          skc_node_is_key st m = skc_node_is_key st i := by
  intro f
  induction f with
  | zero => intro i hi m hm; cases hm
  | succ g ih =>
    intro i hi m hm
    rw [chainList] at hm
    rcases List.mem_cons.mp hm with h0 | h1
    · subst h0
      exact ⟨Nat.le_refl m, hi, rfl, rfl⟩
    · rcases hnx : skc_node_get_next st i with _ | j
      · rw [hnx] at h1
        cases g <;> cases h1
      · rw [hnx] at h1
        have hne : (nodeAt st i).next ≠ 0 := by
          intro h0
          rw [skc_node_get_next, if_pos h0] at hnx
          cases hnx
        have hj : j = (nodeAt st i).next := by
          rw [skc_node_get_next, if_neg hne] at hnx
          cases hnx
          rfl
        obtain ⟨hij, hjn, hpar, hkind⟩ := ao_next h hi hne
        rw [← hj] at hij hjn hpar hkind
        obtain ⟨h2, h3, h4, h5⟩ := ih hjn m h1
        exact ⟨Nat.le_of_lt (Nat.lt_of_lt_of_le hij h2), h3, h4.trans hpar, h5.trans hkind⟩

theorem chainList_fuel {st : SkcState} (h : arena_ordered st) :
    ∀ (f1 f2 : Nat) {i : Nat}, i < st.nodes.length →
      st.nodes.length - i ≤ f1 → st.nodes.length - i ≤ f2 →
      chainList st f1 (some i) = chainList st f2 (some i) := by
  intro f1
  induction f1 with
  | zero => intro f2 i hi h1 h2; omega
  | succ g ih =>
    intro f2 i hi h1 h2
    cases f2 with
    | zero => omega
    | succ g2 =>
      rw [chainList, chainList]
      rcases hnx : skc_node_get_next st i with _ | j
      · cases g <;> cases g2 <;> rfl
      · have hne : (nodeAt st i).next ≠ 0 := by
          intro h0
          rw [skc_node_get_next, if_pos h0] at hnx
          cases hnx
        have hj : j = (nodeAt st i).next := by
          rw [skc_node_get_next, if_neg hne] at hnx
          cases hnx
          rfl
        obtain ⟨hij, hjn, _, _⟩ := ao_next h hi hne
        rw [← hj] at hij hjn
        rw [ih g2 hjn (by omega) (by omega)]

theorem find_child_loop_step (st : SkcState) (f : Nat) (i : Nat) (key : List Char) :
    skc_find_child_loop st (f + 1) (some i) key =
      if ¬ skc_node_is_key st i then (some i, key)
      else
        match skc_node_match_pfx st i key with
        | none => skc_find_child_loop st f (skc_node_get_next st i) key
        | some key2 =>
          if key2.headD nulc ≠ nulc then
            skc_find_child_loop st f (skc_node_get_child st i) key2
          else (some i, key2) := rfl

theorem find_child_loop_none (st : SkcState) (f : Nat) (key : List Char) :
    skc_find_child_loop st f none key = (none, key) := by
  cases f <;> rfl

theorem find_child_spec_none (st : SkcState) (f : Nat) (key : List Char) :
    find_child_spec st f none key = none := by
  cases f <;> rfl

theorem nodeAt_oob {st : SkcState} {i : Nat} (h : st.nodes.length ≤ i) :
    nodeAt st i = default :=
  List.getD_eq_default st.nodes default h


theorem oob_get_next {st : SkcState} {i : Nat} (h : st.nodes.length ≤ i) :
    skc_node_get_next st i = none := by
  rw [skc_node_get_next, nodeAt_oob h]
  rfl

theorem oob_get_child {st : SkcState} {i : Nat} (h : st.nodes.length ≤ i) :
    skc_node_get_child st i = none := by
  rw [skc_node_get_child, nodeAt_oob h]
  rfl

theorem loop_value (st : SkcState) (f i : Nat) (key : List Char)
    (hk : skc_node_is_key st i = false) :
    skc_find_child_loop st (f + 1) (some i) key = (some i, key) := by
  rw [find_child_loop_step, if_pos (by simp [hk])]

theorem loop_nomatch (st : SkcState) (f i : Nat) (key : List Char)
    (hk : skc_node_is_key st i = true) (hm : skc_node_match_pfx st i key = none) :
    skc_find_child_loop st (f + 1) (some i) key =
      skc_find_child_loop st f (skc_node_get_next st i) key := by
  rw [find_child_loop_step, if_neg (by simp [hk]), hm]

theorem loop_descend (st : SkcState) (f i : Nat) (key key2 : List Char)
    (hk : skc_node_is_key st i = true)
    (hm : skc_node_match_pfx st i key = some key2)
    (h2 : key2.headD nulc ≠ nulc) :
    skc_find_child_loop st (f + 1) (some i) key =
      skc_find_child_loop st f (skc_node_get_child st i) key2 := by
  rw [find_child_loop_step, if_neg (by simp [hk]), hm]
  show (if key2.headD nulc ≠ nulc then
      skc_find_child_loop st f (skc_node_get_child st i) key2
    else (some i, key2)) = _
  rw [if_pos h2]

theorem loop_done (st : SkcState) (f i : Nat) (key key2 : List Char)
    (hk : skc_node_is_key st i = true)
    (hm : skc_node_match_pfx st i key = some key2)
    (h2 : key2.headD nulc = nulc) :
    skc_find_child_loop st (f + 1) (some i) key = (some i, key2) := by
  rw [find_child_loop_step, if_neg (by simp [hk]), hm]
  show (if key2.headD nulc ≠ nulc then
      skc_find_child_loop st f (skc_node_get_child st i) key2
    else (some i, key2)) = _
  rw [if_neg (by simpa using h2)]

theorem spec_value (st : SkcState) (fs i : Nat) (key : List Char)
    (hk : skc_node_is_key st i = false) :
    find_child_spec st (fs + 1) (some i) key = some i := by
  rw [find_child_spec, chainList, List.find?_cons_of_pos _ (by simp [hk])]
  show (if ¬ skc_node_is_key st i then some i
      else
        match skc_node_match_pfx st i key with
        | none => none
        | some key2 =>
          if key2.headD nulc ≠ nulc then
            find_child_spec st fs (skc_node_get_child st i) key2
          else some i) = some i
  rw [if_pos (by simp [hk])]

theorem spec_done (st : SkcState) (fs i : Nat) (key key2 : List Char)
    (hk : skc_node_is_key st i = true)
    (hm : skc_node_match_pfx st i key = some key2)
    (h2 : key2.headD nulc = nulc) :
    find_child_spec st (fs + 1) (some i) key = some i := by
  rw [find_child_spec, chainList, List.find?_cons_of_pos _ (by simp [hk, hm])]
  show (if ¬ skc_node_is_key st i then some i
      else
        match skc_node_match_pfx st i key with
        | none => none
        | some key2 =>
          if key2.headD nulc ≠ nulc then
            find_child_spec st fs (skc_node_get_child st i) key2
          else some i) = some i
  rw [if_neg (by simp [hk]), hm]
  show (if key2.headD nulc ≠ nulc then
      find_child_spec st fs (skc_node_get_child st i) key2
    else some i) = some i
  rw [if_neg (by simpa using h2)]

theorem spec_descend (st : SkcState) (fs i : Nat) (key key2 : List Char)
    (hk : skc_node_is_key st i = true)
    (hm : skc_node_match_pfx st i key = some key2)
    (h2 : key2.headD nulc ≠ nulc) :
    find_child_spec st (fs + 1) (some i) key =
      find_child_spec st fs (skc_node_get_child st i) key2 := by
  rw [find_child_spec, chainList, List.find?_cons_of_pos _ (by simp [hk, hm])]
  show (if ¬ skc_node_is_key st i then some i
      else
        match skc_node_match_pfx st i key with
        | none => none
        | some key2 =>
          if key2.headD nulc ≠ nulc then
            find_child_spec st fs (skc_node_get_child st i) key2
          else some i) = _
  rw [if_neg (by simp [hk]), hm]
  show (if key2.headD nulc ≠ nulc then
      find_child_spec st fs (skc_node_get_child st i) key2
    else some i) = _
  rw [if_pos h2]

theorem spec_skip_end (st : SkcState) (fs i : Nat) (key : List Char)
    (hk : skc_node_is_key st i = true)
    (hm : skc_node_match_pfx st i key = none)
    (hnx : skc_node_get_next st i = none) :
    find_child_spec st (fs + 1) (some i) key = none := by
  rw [find_child_spec, chainList, hnx, List.find?_cons_of_neg _ (by simp [hk, hm])]
  rfl

theorem spec_skip {st : SkcState} (h : arena_ordered st) (fs i j : Nat)
    (key : List Char)
    (hk : skc_node_is_key st i = true)
    (hm : skc_node_match_pfx st i key = none)
    (hnx : skc_node_get_next st i = some j) (hj : j < st.nodes.length) :
    find_child_spec st (fs + 1) (some i) key =
      find_child_spec st (fs + 1) (some j) key := by
  have h512 : SKC_NODE_MAX = 512 := rfl
  have hn512 : st.nodes.length ≤ SKC_NODE_MAX := h.1
  rw [find_child_spec, chainList, hnx, List.find?_cons_of_neg _ (by simp [hk, hm]),
    chainList_fuel h SKC_NODE_MAX (SKC_NODE_MAX + 1) hj (by omega) (by omega)]
  conv_rhs => rw [find_child_spec]

theorem find_child_loop_eq_spec {st : SkcState} (h : arena_ordered st) :
    ∀ (d : Nat), ∀ {i : Nat}, ∀ (key : List Char) (fl fs : Nat),
      st.nodes.length - i ≤ d → st.nodes.length - i < fl →
      st.nodes.length - i < fs →
      (skc_find_child_loop st fl (some i) key).1 =
        find_child_spec st fs (some i) key := by
  intro d
  induction d using Nat.strong_induction_on with
  | _ d ih =>
  intro i key fl fs hd hfl hfs
  have h512 : SKC_NODE_MAX = 512 := rfl
  have hn512 : st.nodes.length ≤ SKC_NODE_MAX := h.1
  cases fl with
  | zero => omega
  | succ fl2 =>
  cases fs with
  | zero => omega
  | succ fs2 =>
  by_cases hki : skc_node_is_key st i = true
  · cases hm : skc_node_match_pfx st i key with
    | none =>
      rw [loop_nomatch st fl2 i key hki hm]
      cases hnx : skc_node_get_next st i with
      | none =>
        rw [spec_skip_end st fs2 i key hki hm hnx, find_child_loop_none]
      | some j =>
        have hilt : i < st.nodes.length := by
          by_contra hge
          rw [oob_get_next (by omega)] at hnx
          cases hnx
        have hne : (nodeAt st i).next ≠ 0 := by
          intro h0
          rw [skc_node_get_next, if_pos h0] at hnx
          cases hnx
        have hj : j = (nodeAt st i).next := by
          rw [skc_node_get_next, if_neg hne] at hnx
          cases hnx
          rfl
        obtain ⟨hij, hjn, _, _⟩ := ao_next h hilt hne
        rw [← hj] at hij hjn
        rw [spec_skip h fs2 i j key hki hm hnx hjn]
        exact ih (st.nodes.length - j) (by omega) key fl2 (fs2 + 1)
          (Nat.le_refl _) (by omega) (by omega)
    | some key2 =>
      by_cases h2 : key2.headD nulc ≠ nulc
      · rw [loop_descend st fl2 i key key2 hki hm h2,
          spec_descend st fs2 i key key2 hki hm h2]
        cases hc : skc_node_get_child st i with
        | none =>
          rw [find_child_loop_none, find_child_spec_none]
        | some c =>
          have hilt : i < st.nodes.length := by
            by_contra hge
            rw [oob_get_child (by omega)] at hc
            cases hc
          have hcne : (nodeAt st i).child ≠ 0 := by
            intro h0
            rw [skc_node_get_child, if_pos h0] at hc
            cases hc
          have hceq : c = (nodeAt st i).child := by
            rw [skc_node_get_child, if_neg hcne] at hc
            cases hc
            rfl
          obtain ⟨hic, hcn, _⟩ := ao_child h hilt hcne
          rw [← hceq] at hic hcn
          exact ih (st.nodes.length - c) (by omega) key2 fl2 fs2
            (Nat.le_refl _) (by omega) (by omega)
      · have h2e : key2.headD nulc = nulc := not_not.mp h2
        rw [loop_done st fl2 i key key2 hki hm h2e,
          spec_done st fs2 i key key2 hki hm h2e]
  · have hkf : skc_node_is_key st i = false := by
      cases hk0 : skc_node_is_key st i
      · rfl
      · exact absurd hk0 hki
    rw [loop_value st fl2 i key hkf, spec_value st fs2 i key hkf]

/-- C6: counterexample to the claim as stated.  On `a.b = 1;` the lookup of
`a.b.c` descends below `b` into its value child and the loop stops there;
`skc_node_find_child` returns that *value* node (index 2) instead of the
claimed none. -/
theorem c6_lands_on_value :
    skc_node_find_child exAB none ("a.b.c".data) = some 2 ∧
    skc_node_is_value exAB 2 = true ∧
    skc_node_get_data exAB 2 = "1".data := by
  exact ⟨rfl, rfl, rfl⟩

/-- C6 (amended): on ordered arenas `skc_node_find_child` equals, for every
parent and key, the walk `find_child_spec` written from the amended claim's
words — whose branches are exactly the claim's clauses: the scan of the
current sibling chain that falls off without a match returns none (the
`find?` none branch, and the descent into a childless key); landing on a value
node returns that value node, not none (the not-a-key branch); a matched key
node that consumed the entire dotted key is returned (the consumed branch);
otherwise the walk descends into the matched node's children with the rest of
the key. -/
theorem c6_amended (st : SkcState) (h : arena_ordered st) (parent : Option Nat)
    (key : List Char) :
    skc_node_find_child st parent key =
      find_child_spec st (SKC_NODE_MAX + 1) (find_child_start st parent) key := by
  have h512 : SKC_NODE_MAX = 512 := rfl
  have hn512 : st.nodes.length ≤ SKC_NODE_MAX := h.1
  rw [skc_node_find_child]
  cases hs : find_child_start st parent with
  | none => rfl
  | some c =>
    exact find_child_loop_eq_spec h (st.nodes.length - c) key
      (SKC_NODE_MAX + 1) (SKC_NODE_MAX + 1) (Nat.le_refl _) (by omega) (by omega)

/-- C6 witness: `c6_amended` applied to the lookup of `a.b.c` on the tree of
`a.b = 1;` — both the code and the spec walk land on the value node 2. -/
theorem c6_amended_witness :
    arena_ordered exAB ∧
    skc_node_find_child exAB none ("a.b.c".data) =
      find_child_spec exAB (SKC_NODE_MAX + 1) (find_child_start exAB none)
        ("a.b.c".data) ∧
    find_child_spec exAB (SKC_NODE_MAX + 1) (find_child_start exAB none)
      ("a.b.c".data) = some 2 :=
  ⟨by decide, c6_amended exAB (by decide) none ("a.b.c".data), rfl⟩

/-! ## Claim C7 -/

/-- Key node or value node, each node's `SKC_VALUE` bit is one or zero. -/
theorem is_key_not_value (st : SkcState) (i : Nat) :
    skc_node_is_key st i = true → skc_node_is_value st i = false := by
  simp [skc_node_is_key, skc_node_is_value]

theorem pcf_length_pos (st : SkcState) (f i : Nat) : 0 < (pcf st f i).length := by
  cases f with
  | zero => simp [pcf]
  | succ f =>
    rw [pcf]
    cases skc_node_get_parent st i with
    | none => simp
    | some j => simp

/-- The ancestor-collecting loop of `skc_node_compose_key`, related to the
parent chain: with stack budget `rem` it succeeds exactly when the chain fits,
and fails with `-ERANGE` otherwise. -/
theorem collect_eq_chain (st : SkcState) (hwf : parents_decreasing st = true) :
    ∀ i, i < st.nodes.length →
      ∀ f, i ≤ f → ∀ rem ks,
        skc_compose_collect st rem (some i) ks =
          (if (pcf st f i).length ≤ rem then .ok (pcf st f i ++ ks)
           else .error .erange) := by
  intro i
  induction i using Nat.strong_induction_on with
  | _ i ih =>
    intro hi f hf rem ks
    cases hp : skc_node_get_parent st i with
    | none =>
      have hpcf : pcf st f i = [i] := by
        cases f with
        | zero => rfl
        | succ f => rw [pcf, hp]
      rw [hpcf]
      cases rem with
      | zero => simp [skc_compose_collect]
      | succ rem =>
        rw [skc_compose_collect, hp]
        simp [skc_compose_collect]
    | some j =>
      have hjlt : j < i := by
        have hall := List.all_eq_true.mp hwf i (List.mem_range.mpr hi)
        simp at hall
        unfold skc_node_get_parent at hp
        by_cases hs : (nodeAt st i).parent = SKC_NODE_MAX
        · simp [hs] at hp
        · simp [hs] at hp
          subst hp
          rcases hall with h | h
          · exact absurd h hs
          · exact h
      obtain ⟨f2, rfl⟩ : ∃ f2, f = f2 + 1 := ⟨f - 1, by omega⟩
      have hpcf : pcf st (f2 + 1) i = pcf st f2 j ++ [i] := by rw [pcf, hp]
      rw [hpcf]
      cases rem with
      | zero =>
        rw [skc_compose_collect]
        rw [if_neg (by simp)]
      | succ rem =>
        rw [skc_compose_collect, hp]
        rw [ih j hjlt (Nat.lt_trans hjlt hi) f2 (by omega) rem (i :: ks)]
        by_cases hle : (pcf st f2 j).length ≤ rem
        · rw [if_pos hle, if_pos (by simpa using hle)]
          simp
        · rw [if_neg hle, if_neg (by simpa using hle)]

theorem snprintf_cat_snd (out : List Char) (pos cap : Nat) (s : List Char) :
    (snprintf_cat out pos cap s).2 = s.length := by
  unfold snprintf_cat
  split <;> rfl

/-- The emitting loop always returns the total length of the dot-joined key,
no matter how small the remaining capacity is (`snprintf` reports the length
it would have printed). -/
theorem emit_total (st : SkcState) :
    ∀ (ks : List Nat) (out : List Char) (pos cap total : Nat),
      (skc_compose_emit st ks out pos cap total).1 =
        total + (join_dots (key_words st ks)).length := by
  intro ks
  induction ks with
  | nil => intro out pos cap total; simp [skc_compose_emit, key_words, join_dots]
  | cons i rest ih =>
    intro out pos cap total
    rw [skc_compose_emit]
    simp only [snprintf_cat_snd]
    cases rest with
    | nil =>
      simp only [List.isEmpty_nil, eq_self_iff_true, if_true, List.append_nil]
      split
      · rw [ih]
        simp [key_words, join_dots]
      · rw [ih]
        simp [key_words, join_dots]
    | cons r rs =>
      simp only [List.isEmpty_cons, Bool.false_eq_true, if_false]
      split
      · rw [ih]
        simp [key_words, join_dots]
        omega
      · rw [ih]
        simp [key_words, join_dots]
        omega

/-- Unfolding of `skc_node_compose_key` at a present node. -/
theorem compose_some (st : SkcState) (i : Nat) (out : List Char) :
    skc_node_compose_key st (some i) out =
      (match skc_compose_collect st (SKC_DEPTH_MAX - 1)
          (if skc_node_is_value st i then skc_node_get_parent st i else some i) [] with
       | .error e => .error e
       | .ok ks => .ok (skc_compose_emit st ks out 0 out.length 0)) := rfl

/-- C7: counterexample to the TooBig clause.  Composing the key `foo.bar` of
the value node of `foo.bar = "baz";` into a 3-byte buffer does not fail with
TooBig: it truncates the stored string to `fo` and still returns the total
length 7 (with an 8-byte buffer the full key is stored and the same 7 comes
back). -/
theorem c7_no_toobig :
    skc_node_compose_key exFooBar (some 2) (List.replicate 3 ' ') =
      .ok (7, ['f', 'o', nulc]) ∧
    skc_node_compose_key exFooBar (some 2) (List.replicate 8 ' ') =
      .ok (7, "foo.bar".data ++ [nulc]) := by
  exact ⟨rfl, rfl⟩

/-- C7 (amended): `skc_node_compose_key(node, buf, size)` fails with Invalid
when `node` is none, fails with OutOfRange when the key depth reaches
`DEPTH_MAX`, and for a value node composes the key of its (key) parent; it
never fails when `buf` is too small — it truncates the stored string and still
returns the total length of the full dotted key. -/
theorem c7_amended (st : SkcState) (out : List Char) :
    (skc_node_compose_key st none out = .error .einval) ∧
    (∀ i p, skc_node_is_value st i = true → skc_node_get_parent st i = some p →
      skc_node_is_key st p = true →
      skc_node_compose_key st (some i) out = skc_node_compose_key st (some p) out) ∧
    (∀ i, parents_decreasing st = true → i < st.nodes.length →
      skc_node_is_key st i = true →
      (SKC_DEPTH_MAX ≤ (parent_chain st i).length →
        skc_node_compose_key st (some i) out = .error .erange) ∧
      ((parent_chain st i).length < SKC_DEPTH_MAX →
        ∃ w, skc_node_compose_key st (some i) out =
          .ok ((join_dots (key_words st (parent_chain st i))).length, w))) := by
  refine ⟨rfl, ?_, ?_⟩
  · intro i p hv hp hkp
    rw [compose_some, compose_some]
    rw [hv, hp, is_key_not_value st p hkp]
    simp
  · intro i hwf hi hk
    have hnv : skc_node_is_value st i = false := is_key_not_value st i hk
    constructor
    · intro hdeep
      rw [compose_some, hnv]
      simp only [Bool.false_eq_true, if_false]
      rw [collect_eq_chain st hwf i hi i (Nat.le_refl i) (SKC_DEPTH_MAX - 1) []]
      rw [if_neg (by unfold parent_chain at hdeep; unfold SKC_DEPTH_MAX at hdeep ⊢; omega)]
    · intro hshallow
      rw [compose_some, hnv]
      simp only [Bool.false_eq_true, if_false]
      rw [collect_eq_chain st hwf i hi i (Nat.le_refl i) (SKC_DEPTH_MAX - 1) []]
      rw [if_pos (by unfold parent_chain at hshallow; unfold SKC_DEPTH_MAX at hshallow ⊢; omega)]
      refine ⟨(skc_compose_emit st (pcf st i i) out 0 out.length 0).2, ?_⟩
      show Except.ok (skc_compose_emit st (pcf st i i ++ []) out 0 out.length 0) = _
      rw [List.append_nil]
      have h1 := emit_total st (pcf st i i) out 0 out.length 0
      rw [Nat.zero_add] at h1
      rw [parent_chain, ← h1]

/-- C7 witness: `c7_amended` applied to the key node `bar` of
`foo.bar = "baz";` with an 8-byte buffer — the composed length is 7. -/
theorem c7_amended_witness :
    ∃ w, skc_node_compose_key exFooBar (some 1) (List.replicate 8 ' ') =
      .ok ((join_dots (key_words exFooBar (parent_chain exFooBar 1))).length, w) :=
  ((c7_amended exFooBar (List.replicate 8 ' ')).2.2 1 (by decide) (by decide)
    (by decide)).2 (by decide)

/-! ## Claim C10

The offset-overflow branch of `skc_add_node` (modelled by the `warned` flag)
is unreachable: every payload offset the parser hands to `skc_add_node` lies
inside the accepted buffer, whose length `skc_init` has already bounded by
`SKC_DATA_MAX - 1`.  The lemmas below show that every parsing function
preserves `warned` and the buffer length. -/

theorem chAt_ne_nul_lt {buf : List Char} {i : Nat} (h : chAt buf i ≠ nulc) :
    i < buf.length := by
  by_contra hk
  push_neg at hk
  exact h (by unfold chAt; exact List.getD_eq_default _ _ hk)

theorem skip_spaces_f_le (buf : List Char) :
    ∀ (f i : Nat), i ≤ buf.length → skip_spaces_f buf f i ≤ buf.length := by
  intro f
  induction f with
  | zero => intro i h; simpa [skip_spaces_f] using h
  | succ f ih =>
    intro i h
    rw [skip_spaces_f]
    split
    case isTrue hc => exact ih (i + 1) (by omega)
    case isFalse => exact h

theorem skip_spaces_le (buf : List Char) (i : Nat) (h : i ≤ buf.length) :
    skip_spaces buf i ≤ buf.length :=
  skip_spaces_f_le buf (buf.length + 1) i h

theorem strim_fst_length (buf : List Char) (s : Nat) :
    ((strim buf s).1).length = buf.length := by
  unfold strim
  by_cases h : strlenAt buf s = 0
  · simp [h]
  · simp [h]

theorem strim_snd_le (buf : List Char) (s : Nat) (h : s ≤ buf.length) :
    (strim buf s).2 ≤ buf.length := by
  unfold strim
  by_cases h0 : strlenAt buf s = 0
  · simpa [h0] using h
  · simp only [h0, if_false, ite_false]
    have hl : (buf.set (s + strlenAt buf s -
        (((cstr buf s).reverse).takeWhile c_isspace).length) nulc).length = buf.length := by
      simp
    calc skip_spaces (buf.set (s + strlenAt buf s -
            (((cstr buf s).reverse).takeWhile c_isspace).length) nulc) s
        ≤ (buf.set (s + strlenAt buf s -
            (((cstr buf s).reverse).takeWhile c_isspace).length) nulc).length :=
          skip_spaces_le _ s (by rw [hl]; exact h)
      _ = buf.length := hl

theorem valid_keyword_lt (buf : List Char) (k : Nat)
    (h : skc_valid_keyword (cstr buf k) = true) : k < buf.length := by
  unfold skc_valid_keyword at h
  by_cases he : (cstr buf k).headD nulc = nulc
  · rw [if_pos he] at h
    simp at h
  · by_contra hk
    push_neg at hk
    have hnil : cstr buf k = [] := by
      unfold cstr
      rw [List.drop_eq_nil_of_le hk]
      rfl
    rw [hnil] at he
    exact he rfl

theorem parse_value_tail_snd (buf : List Char) (c : Char) (v p : Nat) :
    (parse_value_tail buf c v p).2.1 = v := by
  unfold parse_value_tail
  split <;> rfl

theorem parse_value_tail_eq {B : List Char} {C c : Char} {V P v1 next : Nat}
    (h : parse_value_tail B C V P = (c, v1, next)) : v1 = V := by
  have h2 := parse_value_tail_snd B C V P
  rw [h] at h2
  exact h2

/-- `__skc_parse_value` only rewrites the buffer (writing NUL terminators): it
leaves every other state field alone and preserves the buffer length. -/
theorem parse_value_state (st : SkcState) (v : Nat) :
    ∃ b : List Char, b.length = st.buf.length ∧
      (__skc_parse_value st v).1 = { st with buf := b } := by
  simp only [__skc_parse_value]
  split
  · split
    · exact ⟨st.buf, rfl, rfl⟩
    · split
      · exact ⟨_, by simp, rfl⟩
      · exact ⟨_, by simp, rfl⟩
  · split
    · exact ⟨st.buf, rfl, rfl⟩
    · refine ⟨_, ?_, rfl⟩
      rw [strim_fst_length]
      simp

theorem parse_value_preserves (st : SkcState) (v : Nat) :
    ((__skc_parse_value st v).1).warned = st.warned ∧
    ((__skc_parse_value st v).1).buf.length = st.buf.length := by
  obtain ⟨b, hb, heq⟩ := parse_value_state st v
  rw [heq]
  exact ⟨rfl, hb⟩

/-- On success, the value offset `__skc_parse_value` returns lies inside the
buffer. -/
theorem parse_value_offset_le (st : SkcState) (v : Nat) (c : Char) (v1 next : Nat)
    (h : (__skc_parse_value st v).2 = .ok (c, v1, next)) :
    v1 ≤ st.buf.length := by
  revert h
  simp only [__skc_parse_value]
  split
  case isTrue hq =>
    split
    case h_1 => intro h; simp at h
    case h_2 p hfq =>
      split
      case isTrue => intro h; simp at h
      case isFalse =>
        intro h
        simp only [Except.ok.injEq] at h
        rw [parse_value_tail_eq h]
        have hlt : skip_comment_spaces st.buf (st.buf.length + 1)
            (skip_spaces st.buf v) < st.buf.length := by
          apply chAt_ne_nul_lt
          rcases hq with hq | hq <;> rw [hq] <;> decide
        omega
  case isFalse =>
    split
    case h_1 => intro h; simp at h
    case h_2 p hpb =>
      intro h
      simp only [Except.ok.injEq] at h
      rw [parse_value_tail_eq h]
      have hpl := strpbrk_bounds hpb
      have hset : (st.buf.set p nulc).length = st.buf.length := by simp
      rw [← hset]
      exact strim_snd_le _ _ (by rw [hset]; omega)

theorem add_node_state (st : SkcState) (dataOff flag : Nat) (h : dataOff < SKC_DATA_MAX) :
    ((skc_add_node st dataOff flag).1).warned = st.warned ∧
    ((skc_add_node st dataOff flag).1).buf = st.buf := by
  simp only [skc_add_node]
  split
  · exact ⟨rfl, rfl⟩
  · rw [if_neg (by omega)]
    exact ⟨rfl, rfl⟩

theorem add_sibling_state (st : SkcState) (dataOff flag : Nat) (h : dataOff < SKC_DATA_MAX) :
    ((skc_add_sibling st dataOff flag).1).warned = st.warned ∧
    ((skc_add_sibling st dataOff flag).1).buf = st.buf := by
  have hn := add_node_state st dataOff flag h
  cases hadd : skc_add_node st dataOff flag with
  | mk st1 r =>
    rw [hadd] at hn
    cases r with
    | none =>
      simp only [skc_add_sibling, hadd]
      exact hn
    | some idx =>
      simp only [skc_add_sibling, hadd]
      constructor
      · split
        · exact hn.1
        · split
          · exact hn.1
          · exact hn.1
      · split
        · exact hn.2
        · split
          · exact hn.2
          · exact hn.2

theorem add_child_state (st : SkcState) (dataOff flag : Nat) (h : dataOff < SKC_DATA_MAX) :
    ((skc_add_child st dataOff flag).1).warned = st.warned ∧
    ((skc_add_child st dataOff flag).1).buf = st.buf := by
  have hs := add_sibling_state st dataOff flag h
  unfold skc_add_child
  cases hadd : skc_add_sibling st dataOff flag with
  | mk st1 r =>
    rw [hadd] at hs
    cases r with
    | none => exact hs
    | some idx => exact hs

theorem close_brace_state (st : SkcState) (p : Nat) :
    ((__skc_close_brace st p).1).warned = st.warned ∧
    ((__skc_close_brace st p).1).buf = st.buf := by
  simp only [__skc_close_brace]
  split
  · exact ⟨rfl, rfl⟩
  · constructor
    · split
      · rfl
      · rfl
    · split
      · rfl
      · rfl

theorem add_key_state (st : SkcState) (k : Nat) (hL : st.buf.length < SKC_DATA_MAX) :
    ((__skc_add_key st k).1).warned = st.warned ∧
    ((__skc_add_key st k).1).buf = st.buf := by
  simp only [__skc_add_key]
  by_cases hv : skc_valid_keyword (cstr st.buf k) = true
  case neg =>
    rw [if_pos (by simpa using hv)]
    exact ⟨rfl, rfl⟩
  case pos =>
    rw [if_neg (by simp [hv])]
    have hkM : k < SKC_DATA_MAX := lt_trans (valid_keyword_lt _ _ hv) hL
    have hc := add_child_state st k 0 hkM
    split
    · split <;> rename_i hadd <;> rw [hadd] at hc <;> exact hc
    · split
      · exact ⟨rfl, rfl⟩
      · split <;> rename_i hadd <;> rw [hadd] at hc <;> exact hc

theorem parse_keys_loop_state :
    ∀ (fuel : Nat) (st : SkcState) (k : Nat), st.buf.length < SKC_DATA_MAX →
      ((skc_parse_keys_loop st k fuel).1).warned = st.warned ∧
      ((skc_parse_keys_loop st k fuel).1).buf.length = st.buf.length := by
  intro fuel
  induction fuel with
  | zero => intro st k hL; exact ⟨rfl, rfl⟩
  | succ f ih =>
    intro st k hL
    simp only [skc_parse_keys_loop]
    split
    · have ha := add_key_state st k hL
      exact ⟨ha.1, by rw [ha.2]⟩
    case h_2 p hsc =>
      split
      case h_1 st2 u hak =>
        have ha := add_key_state { st with buf := st.buf.set p nulc } k (by simpa using hL)
        rw [hak] at ha
        have hw : st2.warned = st.warned := ha.1
        have hl : st2.buf.length = st.buf.length := by rw [ha.2]; simp
        have ih2 := ih st2 (p + 1) (by rw [hl]; exact hL)
        exact ⟨by rw [ih2.1, hw], by rw [ih2.2, hl]⟩
      case h_2 st2 e hak =>
        have ha := add_key_state { st with buf := st.buf.set p nulc } k (by simpa using hL)
        rw [hak] at ha
        exact ⟨ha.1, by rw [ha.2]; simp⟩

theorem parse_keys_state (st : SkcState) (k : Nat) (hL : st.buf.length < SKC_DATA_MAX) :
    ((__skc_parse_keys st k).1).warned = st.warned ∧
    ((__skc_parse_keys st k).1).buf.length = st.buf.length := by
  unfold __skc_parse_keys
  have h1 := parse_keys_loop_state (st.buf.length + 1)
    { st with buf := (strim st.buf k).1 } (strim st.buf k).2
    (by simpa [strim_fst_length] using hL)
  exact ⟨h1.1, by rw [h1.2]; simp [strim_fst_length]⟩

theorem parse_array_state :
    ∀ (fuel : Nat) (st : SkcState) (v : Nat), st.buf.length < SKC_DATA_MAX →
      ((skc_parse_array st v fuel).1).warned = st.warned ∧
      ((skc_parse_array st v fuel).1).buf.length = st.buf.length := by
  intro fuel
  induction fuel with
  | zero => intro st v hL; exact ⟨rfl, rfl⟩
  | succ f ih =>
    intro st v hL
    simp only [skc_parse_array]
    split
    case h_1 st1 e hpv =>
      obtain ⟨b, hb, hst1⟩ := parse_value_state st v
      rw [hpv] at hst1
      simp only at hst1
      exact ⟨by rw [hst1], by rw [hst1]; simpa using hb⟩
    case h_2 st1 c v1 next hpv =>
      obtain ⟨b, hb, hst1⟩ := parse_value_state st v
      rw [hpv] at hst1
      simp only at hst1
      have hw1 : st1.warned = st.warned := by rw [hst1]
      have hl1 : st1.buf.length = st.buf.length := by rw [hst1]; simpa using hb
      have hv1 : v1 ≤ st.buf.length :=
        parse_value_offset_le st v c v1 next (by rw [hpv])
      have hv1M : v1 < SKC_DATA_MAX := lt_of_le_of_lt hv1 hL
      have ha := add_sibling_state st1 v1 SKC_VALUE hv1M
      split
      case h_1 st2 hadd =>
        rw [hadd] at ha
        exact ⟨by rw [ha.1, hw1], by rw [ha.2, hl1]⟩
      case h_2 st2 idx hadd =>
        rw [hadd] at ha
        have hw2 : st2.warned = st.warned := by rw [ha.1, hw1]
        have hl2 : st2.buf.length = st.buf.length := by rw [ha.2, hl1]
        split
        · have ih2 := ih st2 next (by rw [hl2]; exact hL)
          exact ⟨by rw [ih2.1, hw2], by rw [ih2.2, hl2]⟩
        · exact ⟨hw2, hl2⟩

theorem parse_kv_state (st : SkcState) (k v : Nat) (hL : st.buf.length < SKC_DATA_MAX) :
    ((skc_parse_kv st k v).1).warned = st.warned ∧
    ((skc_parse_kv st k v).1).buf.length = st.buf.length := by
  simp only [skc_parse_kv]
  split
  case h_1 st1 e hpk =>
    have h1 := parse_keys_state st k hL
    rw [hpk] at h1
    exact h1
  case h_2 st1 u hpk =>
    have h1 := parse_keys_state st k hL
    rw [hpk] at h1
    split
    case h_1 st2 e hpv =>
      obtain ⟨b2, hb2, hst2⟩ := parse_value_state st1 v
      rw [hpv] at hst2
      simp only at hst2
      exact ⟨by rw [hst2]; exact h1.1, by rw [hst2]; show b2.length = _; rw [hb2, h1.2]⟩
    case h_2 st2 c v1 next hpv =>
      obtain ⟨b2, hb2, hst2⟩ := parse_value_state st1 v
      rw [hpv] at hst2
      simp only at hst2
      have hw2 : st2.warned = st.warned := by rw [hst2]; exact h1.1
      have hl2 : st2.buf.length = st.buf.length := by
        rw [hst2]; show b2.length = _; rw [hb2, h1.2]
      have hv1 : v1 ≤ st1.buf.length :=
        parse_value_offset_le st1 v c v1 next (by rw [hpv])
      have hv1M : v1 < SKC_DATA_MAX := lt_of_le_of_lt hv1 (by rw [h1.2]; exact hL)
      have ha := add_sibling_state st2 v1 SKC_VALUE hv1M
      split
      case h_1 st3 hadd =>
        rw [hadd] at ha
        exact ⟨by rw [ha.1, hw2], by rw [ha.2, hl2]⟩
      case h_2 st3 idx hadd =>
        rw [hadd] at ha
        have hw3 : st3.warned = st.warned := by rw [ha.1, hw2]
        have hl3 : st3.buf.length = st.buf.length := by rw [ha.2, hl2]
        split
        case h_1 st4 e heq =>
          have h4 : st4.warned = st.warned ∧ st4.buf.length = st.buf.length := by
            split at heq
            · have harr := parse_array_state (st3.buf.length + 1) st3 next
                (by rw [hl3]; exact hL)
              rw [heq] at harr
              exact ⟨by rw [harr.1, hw3], by rw [harr.2, hl3]⟩
            · cases heq
          exact h4
        case h_2 st4 c2 next2 heq =>
          have h4 : st4.warned = st.warned ∧ st4.buf.length = st.buf.length := by
            split at heq
            · have harr := parse_array_state (st3.buf.length + 1) st3 next
                (by rw [hl3]; exact hL)
              rw [heq] at harr
              exact ⟨by rw [harr.1, hw3], by rw [harr.2, hl3]⟩
            · cases heq
              exact ⟨hw3, hl3⟩
          split
          · have hcb := close_brace_state { st4 with lastParent := st.lastParent } (next2 - 1)
            split
            case h_1 st6 u2 hcb2 =>
              rw [hcb2] at hcb
              exact ⟨by rw [hcb.1]; exact h4.1, by rw [hcb.2]; exact h4.2⟩
            case h_2 st6 e hcb2 =>
              rw [hcb2] at hcb
              exact ⟨by rw [hcb.1]; exact h4.1, by rw [hcb.2]; exact h4.2⟩
          · exact h4

theorem parse_key_state (st : SkcState) (k n : Nat) (hL : st.buf.length < SKC_DATA_MAX) :
    ((skc_parse_key st k n).1).warned = st.warned ∧
    ((skc_parse_key st k n).1).buf.length = st.buf.length := by
  simp only [skc_parse_key]
  split
  case isTrue =>
    have h1 := parse_keys_state { st with buf := (strim st.buf k).1 }
      (strim st.buf k).2 (by simpa [strim_fst_length] using hL)
    split
    case h_1 st2 e hpk =>
      rw [hpk] at h1
      exact ⟨h1.1, by rw [h1.2]; simp [strim_fst_length]⟩
    case h_2 st2 u hpk =>
      rw [hpk] at h1
      exact ⟨h1.1, by rw [h1.2]; simp [strim_fst_length]⟩
  case isFalse => exact ⟨rfl, by simp [strim_fst_length]⟩

theorem open_brace_wrapper_state (st : SkcState) (k n : Nat)
    (hL : st.buf.length < SKC_DATA_MAX) :
    ((skc_open_brace st k n).1).warned = st.warned ∧
    ((skc_open_brace st k n).1).buf.length = st.buf.length := by
  simp only [skc_open_brace]
  have h1 := parse_keys_state st k hL
  split
  case h_1 st1 e hpk =>
    rw [hpk] at h1
    exact h1
  case h_2 st1 u hpk =>
    rw [hpk] at h1
    simp only [__skc_open_brace]
    split
    · exact h1
    · exact h1

theorem close_brace_wrapper_state (st : SkcState) (k n : Nat)
    (hL : st.buf.length < SKC_DATA_MAX) :
    ((skc_close_brace st k n).1).warned = st.warned ∧
    ((skc_close_brace st k n).1).buf.length = st.buf.length := by
  simp only [skc_close_brace]
  have h1 := parse_key_state st k n hL
  split
  case h_1 st1 e hpk =>
    rw [hpk] at h1
    exact h1
  case h_2 st1 k1 hpk =>
    rw [hpk] at h1
    have h2 := close_brace_state st1 (n - 1)
    split
    case h_1 st2 u hcb =>
      rw [hcb] at h2
      exact ⟨by rw [h2.1, h1.1], by rw [h2.2, h1.2]⟩
    case h_2 st2 e hcb =>
      rw [hcb] at h2
      exact ⟨by rw [h2.1, h1.1], by rw [h2.2, h1.2]⟩

theorem verify_tree_fst (st : SkcState) : (skc_verify_tree st).1 = st := by
  unfold skc_verify_tree
  split <;> rfl

/-- Preservation lemma for the delimiter dispatch of the `skc_init` loop. -/
theorem init_dispatch_state (st : SkcState) (c : Char) (p n m : Nat)
    (hL : st.buf.length < SKC_DATA_MAX) :
    ((if c = '=' then skc_parse_kv st p n
      else if c = Char.ofNat 123 then skc_open_brace st p n
      else if c = '#' then skc_parse_key st p m
      else if c = Char.ofNat 125 then skc_close_brace st p n
      else skc_parse_key st p n).1).warned = st.warned ∧
    ((if c = '=' then skc_parse_kv st p n
      else if c = Char.ofNat 123 then skc_open_brace st p n
      else if c = '#' then skc_parse_key st p m
      else if c = Char.ofNat 125 then skc_close_brace st p n
      else skc_parse_key st p n).1).buf.length = st.buf.length := by
  split_ifs
  · exact parse_kv_state st p n hL
  · exact open_brace_wrapper_state st p n hL
  · exact parse_key_state st p m hL
  · exact close_brace_wrapper_state st p n hL
  · exact parse_key_state st p n hL

theorem init_loop_state :
    ∀ (fuel : Nat) (st : SkcState) (p : Nat), st.buf.length < SKC_DATA_MAX →
      ((skc_init_loop st p fuel).1).warned = st.warned ∧
      ((skc_init_loop st p fuel).1).buf.length = st.buf.length := by
  intro fuel
  induction fuel with
  | zero => intro st p hL; exact ⟨rfl, rfl⟩
  | succ f ih =>
    intro st p hL
    simp only [skc_init_loop]
    split
    · split
      · exact ⟨rfl, rfl⟩
      · exact ⟨rfl, rfl⟩
    case h_2 q hsp =>
      have hd := init_dispatch_state { st with buf := st.buf.set q nulc }
        (chAt st.buf q) p (q + 1)
        (skip_comment ({ st with buf := st.buf.set q nulc } : SkcState).buf (q + 1))
        (by simpa using hL)
      split
      case h_1 st2 e heq =>
        rw [heq] at hd
        exact ⟨hd.1, by rw [hd.2]; simp⟩
      case h_2 st2 p2 heq =>
        rw [heq] at hd
        have hw2 : st2.warned = st.warned := hd.1
        have hl2 : st2.buf.length = st.buf.length := by rw [hd.2]; simp
        have ih2 := ih st2 p2 (by rw [hl2]; exact hL)
        exact ⟨by rw [ih2.1, hw2], by rw [ih2.2, hl2]⟩

theorem takeWhile_all_ne (buf : List Char) (h : ∀ c ∈ buf, c ≠ nulc) :
    buf.takeWhile (fun c => c ≠ nulc) = buf := by
  induction buf with
  | nil => rfl
  | cons a l ih =>
    rw [List.takeWhile_cons]
    rw [if_pos (by simpa using h a (by simp))]
    rw [ih (fun c hc => h c (by simp [hc]))]

/-- C10: the offset-overflow branch of `skc_add_node` (the `WARN_ON`, modelled
by the `warned` flag) is unreachable.  For every NUL-free buffer, either
`skc_init` rejects the input with OutOfRange before any node is added, or the
accepted length is at most `SKC_DATA_MAX - 1` and every payload offset the
parser hands to `skc_add_node` — a key-word offset guarded by
`skc_valid_keyword` or a value offset produced by `__skc_parse_value` — lies
inside the buffer and hence below `SKC_DATA_MAX`, fitting the 15-bit data
field. -/
theorem c10_overflow_unreachable (buf : List Char) (h : ∀ c ∈ buf, c ≠ nulc) :
    ((skc_init skcInitialState buf).1).warned = false := by
  have hlen : strlenAt buf 0 = buf.length := by
    unfold strlenAt cstr
    rw [List.drop_zero, takeWhile_all_ne buf h]
  simp only [skc_init]
  rw [if_neg (by simp [skcInitialState])]
  split
  · rfl
  case isFalse hrange =>
    have hL : buf.length < SKC_DATA_MAX := by
      rw [hlen] at hrange
      unfold SKC_DATA_MAX SKC_VALUE at hrange ⊢
      omega
    have h2 := init_loop_state (buf.length + 2) { skcInitialState with buf := buf, dataSet := true, dataSize := strlenAt buf 0 + 1 } 0 hL
    split
    case h_1 st2 e hloop =>
      rw [hloop] at h2
      exact h2.1
    case h_2 st2 u hloop =>
      rw [hloop] at h2
      have hv := verify_tree_fst st2
      split
      case h_1 st3 u2 hver =>
        rw [hver] at hv
        have hv2 : st3 = st2 := hv
        show st3.warned = false
        rw [hv2]
        exact h2.1
      case h_2 st3 e hver =>
        rw [hver] at hv
        have hv2 : st3 = st2 := hv
        show st3.warned = false
        rw [hv2]
        exact h2.1

/-- C10 witness: `c10_overflow_unreachable` at the concrete input `a=1;`. -/
theorem c10_overflow_unreachable_witness :
    ((skc_init skcInitialState ("a=1;".data)).1).warned = false :=
  c10_overflow_unreachable ("a=1;".data) (by decide)

/-! ## Claim C8 -/


theorem head_append_ne_nil {A B : List Nat} (h : A ≠ []) : (A ++ B).head? = A.head? := by
  cases A with
  | nil => exact absurd rfl h
  | cons a t => rfl

theorem bind_congr_mem {l : List Nat} {f g : Nat → List Nat}
    (h : ∀ a ∈ l, f a = g a) : l.flatMap f = l.flatMap g := by
  induction l with
  | nil => rfl
  | cons a t ih =>
    simp only [List.flatMap_cons]
    rw [h a (List.mem_cons_self a t), ih fun b hb => h b (List.mem_cons_of_mem a hb)]

theorem dropWhile_cons_mem {x : Nat} : ∀ {A : List Nat}, x ∈ A →
    ∃ t, A.dropWhile (fun z => z != x) = x :: t := by
  intro A hx
  induction A with
  | nil => cases hx
  | cons a t ih =>
    by_cases hax : a = x
    · subst hax
      exact ⟨t, by simp [List.dropWhile_cons]⟩
    · have hxt : x ∈ t := by
        rcases List.mem_cons.mp hx with h | h
        · exact absurd h.symm hax
        · exact h
      obtain ⟨u, hu⟩ := ih hxt
      refine ⟨u, ?_⟩
      rw [List.dropWhile_cons, if_pos (by simpa using hax), hu]

theorem dropWhile_append_mem {x : Nat} {A B : List Nat} (hx : x ∈ A) :
    (A ++ B).dropWhile (fun z => z != x) =
      (A.dropWhile (fun z => z != x)) ++ B := by
  induction A with
  | nil => cases hx
  | cons a t ih =>
    by_cases hax : a = x
    · subst hax
      simp [List.dropWhile_cons]
    · have hxt : x ∈ t := by
        rcases List.mem_cons.mp hx with h | h
        · exact absurd h.symm hax
        · exact h
      rw [List.cons_append, List.dropWhile_cons, List.dropWhile_cons,
        if_pos (by simpa using hax), if_pos (by simpa using hax), ih hxt]

theorem dropWhile_append_not_mem {x : Nat} {A B : List Nat} (hx : x ∉ A) :
    (A ++ B).dropWhile (fun z => z != x) = B.dropWhile (fun z => z != x) := by
  induction A with
  | nil => rfl
  | cons a t ih =>
    have hax : a ≠ x := fun h => hx (h ▸ List.mem_cons_self a t)
    have hxt : x ∉ t := fun h => hx (List.mem_cons_of_mem a h)
    rw [List.cons_append, List.dropWhile_cons, if_pos (by simpa using hax), ih hxt]

theorem nextInList_append_some {A B : List Nat} {x y : Nat} (hx : x ∈ A)
    (h : nextInList A x = some y) : nextInList (A ++ B) x = some y := by
  unfold nextInList at h ⊢
  rw [dropWhile_append_mem hx]
  obtain ⟨t, ht⟩ := dropWhile_cons_mem hx
  rw [ht] at h ⊢
  cases t with
  | nil => simp at h
  | cons u t' =>
    simp only [List.cons_append]
    exact h

theorem nextInList_append_none {A B : List Nat} {x : Nat} (hx : x ∈ A)
    (h : nextInList A x = none) : nextInList (A ++ B) x = B.head? := by
  unfold nextInList at h ⊢
  rw [dropWhile_append_mem hx]
  obtain ⟨t, ht⟩ := dropWhile_cons_mem hx
  rw [ht] at h ⊢
  cases t with
  | cons u t' => simp at h
  | nil =>
    cases B with
    | nil => rfl
    | cons b B' => rfl

theorem nextInList_append_right {A B : List Nat} {x : Nat} (hx : x ∉ A) :
    nextInList (A ++ B) x = nextInList B x := by
  unfold nextInList
  rw [dropWhile_append_not_mem hx]

theorem nextInList_singleton (x : Nat) : nextInList [x] x = none := by
  unfold nextInList
  simp [List.dropWhile_cons]


theorem is_chain_chainList {st : SkcState} (h : arena_ordered st) :
    ∀ (f : Nat) {i : Nat}, i < st.nodes.length → st.nodes.length - i ≤ f →
      is_chain st (some i) (chainList st f (some i)) := by
  intro f
  induction f with
  | zero => intro i hi h1; omega
  | succ g ih =>
    intro i hi h1
    rw [chainList]
    refine ⟨rfl, ?_⟩
    rcases hnx : skc_node_get_next st i with _ | j
    · cases g <;> exact rfl
    · have hne : (nodeAt st i).next ≠ 0 := by
        intro h0
        rw [skc_node_get_next, if_pos h0] at hnx
        cases hnx
      have hj : j = (nodeAt st i).next := by
        rw [skc_node_get_next, if_neg hne] at hnx
        cases hnx
        rfl
      obtain ⟨hij, hjn, _, _⟩ := ao_next h hi hne
      rw [← hj] at hij hjn
      exact ih hjn (by omega)


theorem not_value_is_key {st : SkcState} {i : Nat}
    (h : skc_node_is_value st i = false) : skc_node_is_key st i = true := by
  simp only [skc_node_is_value, SKC_VALUE, decide_eq_false_iff_not, Nat.not_le] at h
  simp only [skc_node_is_key, SKC_VALUE, decide_eq_true_eq]
  omega

theorem nonleaf_key_child {st : SkcState} {i : Nat}
    (hk : skc_node_is_key st i = true) (hl : skc_node_is_leaf st i = false) :
    (nodeAt st i).child ≠ 0 ∧ skc_node_is_key st (nodeAt st i).child = true := by
  rw [skc_node_is_leaf, hk, Bool.true_and] at hl
  rcases Bool.or_eq_false_iff.mp hl with ⟨h1, h2⟩
  exact ⟨by simpa using h1, not_value_is_key h2⟩

theorem subtree_leaves_fuel {st : SkcState} (h : arena_ordered st) :
    ∀ (f1 f2 : Nat) {i : Nat}, i < st.nodes.length →
      st.nodes.length - i ≤ f1 → st.nodes.length - i ≤ f2 →
      subtree_leaves_f st f1 i = subtree_leaves_f st f2 i := by
  intro f1
  induction f1 with
  | zero => intro f2 i hi h1 h2; omega
  | succ g ih =>
    intro f2 i hi h1 h2
    cases f2 with
    | zero => omega
    | succ g2 =>
      rw [subtree_leaves_f, subtree_leaves_f]
      by_cases hl : skc_node_is_leaf st i = true
      · rw [if_pos hl, if_pos hl]
      · rw [if_neg hl, if_neg hl]
        cases hc : skc_node_get_child st i with
        | none => cases g <;> cases g2 <;> rfl
        | some c =>
          have hcne : (nodeAt st i).child ≠ 0 := by
            intro h0
            rw [skc_node_get_child, if_pos h0] at hc
            cases hc
          have hceq : c = (nodeAt st i).child := by
            rw [skc_node_get_child, if_neg hcne] at hc
            cases hc
            rfl
          obtain ⟨hic, hcn, _⟩ := ao_child h hi hcne
          rw [← hceq] at hic hcn
          rw [chainList_fuel h g g2 hcn (by omega) (by omega)]
          apply bind_congr_mem
          intro m hm
          obtain ⟨hcm, hmn, _, _⟩ := chain_invariants h g2 hcn m hm
          exact ih g2 hmn (by omega) (by omega)

theorem subtree_leaves_mem {st : SkcState} (h : arena_ordered st) :
    ∀ (f : Nat) {i : Nat}, i < st.nodes.length →
      ∀ x ∈ subtree_leaves_f st f i,
        skc_node_is_leaf st x = true ∧ i ≤ x ∧ x < st.nodes.length := by
  intro f
  induction f with
  | zero => intro i hi x hx; cases hx
  | succ g ih =>
    intro i hi x hx
    rw [subtree_leaves_f] at hx
    by_cases hl : skc_node_is_leaf st i = true
    · rw [if_pos hl] at hx
      have hxi : x = i := List.mem_singleton.mp hx
      subst hxi
      exact ⟨hl, Nat.le_refl x, hi⟩
    · rw [if_neg hl] at hx
      rcases List.mem_flatMap.mp hx with ⟨m, hm, hxm⟩
      cases hc : skc_node_get_child st i with
      | none =>
        rw [hc] at hm
        cases g <;> cases hm
      | some c =>
        rw [hc] at hm
        have hcne : (nodeAt st i).child ≠ 0 := by
          intro h0
          rw [skc_node_get_child, if_pos h0] at hc
          cases hc
        have hceq : c = (nodeAt st i).child := by
          rw [skc_node_get_child, if_neg hcne] at hc
          cases hc
          rfl
        obtain ⟨hic, hcn, _⟩ := ao_child h hi hcne
        rw [← hceq] at hic hcn
        obtain ⟨hcm, hmn, _, _⟩ := chain_invariants h g hcn m hm
        obtain ⟨hleaf, hmx, hxn⟩ := ih hmn x hxm
        exact ⟨hleaf, by omega, hxn⟩

theorem key_subtree_ne_nil {st : SkcState} (h : arena_ordered st) :
    ∀ (f : Nat) {i : Nat}, i < st.nodes.length →
      skc_node_is_key st i = true → st.nodes.length - i ≤ f →
      subtree_leaves_f st f i ≠ [] := by
  intro f
  induction f with
  | zero => intro i hi hk h1; omega
  | succ g ih =>
    intro i hi hk h1
    rw [subtree_leaves_f]
    by_cases hl : skc_node_is_leaf st i = true
    · rw [if_pos hl]
      exact List.cons_ne_nil i []
    · rw [if_neg hl]
      obtain ⟨hcne, hkc⟩ := nonleaf_key_child hk (Bool.not_eq_true _ ▸ hl)
      obtain ⟨hic, hcn, _⟩ := ao_child h hi hcne
      have hgc : skc_node_get_child st i = some (nodeAt st i).child := by
        rw [skc_node_get_child, if_neg hcne]
      rw [hgc]
      cases g with
      | zero => omega
      | succ g2 =>
        rw [chainList, List.flatMap_cons]
        intro hemp
        rcases List.append_eq_nil.mp hemp with ⟨h2, _⟩
        exact ih hcn hkc (by omega) h2

theorem descend_head {st : SkcState} (h : arena_ordered st) :
    ∀ (f : Nat) {i : Nat}, i < st.nodes.length →
      skc_node_is_key st i = true → st.nodes.length - i ≤ f →
      next_leaf_descend st f (some i) = (subtree_leaves_f st f i).head? := by
  intro f
  induction f with
  | zero => intro i hi hk h1; omega
  | succ g ih =>
    intro i hi hk h1
    rw [next_leaf_descend, subtree_leaves_f]
    by_cases hl : skc_node_is_leaf st i = true
    · rw [if_pos hl, if_pos hl]
      rfl
    · rw [if_neg hl, if_neg hl]
      obtain ⟨hcne, hkc⟩ := nonleaf_key_child hk (Bool.not_eq_true _ ▸ hl)
      obtain ⟨hic, hcn, _⟩ := ao_child h hi hcne
      have hgc : skc_node_get_child st i = some (nodeAt st i).child := by
        rw [skc_node_get_child, if_neg hcne]
      rw [hgc]
      cases g with
      | zero => omega
      | succ g2 =>
        rw [chainList, List.flatMap_cons,
          head_append_ne_nil (key_subtree_ne_nil h _ hcn hkc (by omega))]
        exact ih hcn hkc (by omega)

theorem descend_none (st : SkcState) (f : Nat) : next_leaf_descend st f none = none := by
  cases f <;> rfl

theorem ascend_fuel {st : SkcState} (h : arena_ordered st) (r : Option Nat) :
    ∀ (f1 f2 : Nat) {i : Nat}, i < st.nodes.length → i < f1 → i < f2 →
      next_leaf_ascend st r f1 i = next_leaf_ascend st r f2 i := by
  intro f1
  induction f1 with
  | zero => intro f2 i hi h1 h2; omega
  | succ g ih =>
    intro f2 i hi h1 h2
    cases f2 with
    | zero => omega
    | succ g2 =>
      rw [next_leaf_ascend, next_leaf_ascend]
      by_cases hnx : (nodeAt st i).next ≠ 0
      · rw [if_pos hnx, if_pos hnx]
      · rw [if_neg hnx, if_neg hnx]
        cases hp : skc_node_get_parent st i with
        | none => rfl
        | some j =>
          have hjlt : j < i := by
            rw [skc_node_get_parent] at hp
            by_cases hs : (nodeAt st i).parent = SKC_NODE_MAX
            · rw [if_pos hs] at hp
              cases hp
            · rw [if_neg hs] at hp
              cases hp
              rcases ao_parent h hi with h0 | h0
              · exact absurd h0 hs
              · exact h0
          show (if r = some j then none else next_leaf_ascend st r g j) =
            (if r = some j then none else next_leaf_ascend st r g2 j)
          by_cases hr : r = some j
          · rw [if_pos hr, if_pos hr]
          · rw [if_neg hr, if_neg hr]
            exact ih g2 (Nat.lt_trans hjlt hi) (by omega) (by omega)


theorem subtree_ascend {st : SkcState} (h : arena_ordered st) :
    ∀ (d : Nat), ∀ {j : Nat}, st.nodes.length - j ≤ d →
      skc_node_is_key st j = true → j < st.nodes.length →
      ∀ {x : Nat} {r : Option Nat}, x ∈ subtree_leaves st j →
      (r = none ∨ ∃ r0, r = some r0 ∧ r0 ≤ j) →
      (∀ y, nextInList (subtree_leaves st j) x = some y →
        next_leaf_descend st (SKC_NODE_MAX + 1)
          (next_leaf_ascend st r (SKC_NODE_MAX + 1) x) = some y) ∧
      (nextInList (subtree_leaves st j) x = none →
        (r = some j → x ≠ j → next_leaf_ascend st r (SKC_NODE_MAX + 1) x = none) ∧
        (r ≠ some j → next_leaf_ascend st r (SKC_NODE_MAX + 1) x =
          next_leaf_ascend st r (SKC_NODE_MAX + 1) j)) := by
  intro d
  induction d using Nat.strong_induction_on with
  | _ d ih =>
  intro j hd hkey hj x r hx hr
  have h512 : SKC_NODE_MAX = 512 := rfl
  have hn512 : st.nodes.length ≤ SKC_NODE_MAX := h.1
  by_cases hleaf : skc_node_is_leaf st j = true
  · have hsub : subtree_leaves st j = [j] := by
      rw [subtree_leaves, subtree_leaves_f, if_pos hleaf]
    have hxj : x = j := List.mem_singleton.mp (hsub ▸ hx)
    subst hxj
    constructor
    · intro y hy
      rw [hsub, nextInList_singleton] at hy
      cases hy
    · intro _
      constructor
      · intro _ hne
        exact absurd rfl hne
      · intro _
        rfl
  · obtain ⟨hcne, hkc⟩ := nonleaf_key_child hkey (Bool.not_eq_true _ ▸ hleaf)
    obtain ⟨hjc, hcn, hcpar⟩ := ao_child h hj hcne
    have hgc : skc_node_get_child st j = some (nodeAt st j).child := by
      rw [skc_node_get_child, if_neg hcne]
    have hsub : subtree_leaves st j =
        (chainList st (SKC_NODE_MAX + 1) (some (nodeAt st j).child)).flatMap
          (fun m => subtree_leaves st m) := by
      rw [subtree_leaves, subtree_leaves_f, if_neg hleaf, hgc]
      rw [chainList_fuel h SKC_NODE_MAX (SKC_NODE_MAX + 1) hcn (by omega) (by omega)]
      apply bind_congr_mem
      intro m hm
      obtain ⟨hcm, hmn, _, _⟩ := chain_invariants h (SKC_NODE_MAX + 1) hcn m hm
      exact subtree_leaves_fuel h SKC_NODE_MAX (SKC_NODE_MAX + 1) hmn (by omega) (by omega)
    have chain_main : ∀ (cl : List Nat) (strt : Option Nat),
        is_chain st strt cl →
        (∀ m ∈ cl, skc_node_is_key st m = true ∧ m < st.nodes.length ∧
          (nodeAt st m).parent = j ∧ j < m) →
        ∀ x', x' ∈ cl.flatMap (fun m => subtree_leaves st m) →
        (∀ y, nextInList (cl.flatMap (fun m => subtree_leaves st m)) x' = some y →
          next_leaf_descend st (SKC_NODE_MAX + 1)
            (next_leaf_ascend st r (SKC_NODE_MAX + 1) x') = some y) ∧
        (nextInList (cl.flatMap (fun m => subtree_leaves st m)) x' = none →
          (r = some j → next_leaf_ascend st r (SKC_NODE_MAX + 1) x' = none) ∧
          (r ≠ some j → next_leaf_ascend st r (SKC_NODE_MAX + 1) x' =
            next_leaf_ascend st r (SKC_NODE_MAX + 1) j)) := by
      intro cl
      induction cl with
      | nil =>
        intro strt hch hmem x' hx'
        exact absurd hx' (List.not_mem_nil x')
      | cons m rest ihc =>
        intro strt hch hmem x' hx'
        obtain ⟨hstrt, hchrest⟩ := hch
        obtain ⟨hkm, hmn, hmpar, hjm⟩ := hmem m (List.mem_cons_self m rest)
        rw [List.flatMap_cons] at hx' ⊢
        by_cases hxm : x' ∈ subtree_leaves st m
        · have hdm : st.nodes.length - m < d := by omega
          have hrm : r = none ∨ ∃ r0, r = some r0 ∧ r0 ≤ m := by
            rcases hr with h0 | ⟨r0, hr0, hr0le⟩
            · exact Or.inl h0
            · exact Or.inr ⟨r0, hr0, by omega⟩
          have Sm := ih (st.nodes.length - m) hdm (Nat.le_refl _) hkm hmn hxm hrm
          cases hnx : nextInList (subtree_leaves st m) x' with
          | some y =>
            have hL : nextInList (subtree_leaves st m ++
                rest.flatMap (fun m => subtree_leaves st m)) x' = some y :=
              nextInList_append_some hxm hnx
            constructor
            · intro y' hy'
              rw [hL] at hy'
              injection hy' with hyy
              rw [← hyy]
              exact Sm.1 y hnx
            · intro h0
              rw [hL] at h0
              cases h0
          | none =>
            have hrnm : r ≠ some m := by
              rcases hr with h0 | ⟨r0, hr0, hr0le⟩
              · rw [h0]
                intro hh
                cases hh
              · rw [hr0]
                intro hh
                injection hh with hh
                omega
            have hxc : next_leaf_ascend st r (SKC_NODE_MAX + 1) x' =
                next_leaf_ascend st r (SKC_NODE_MAX + 1) m := (Sm.2 hnx).2 hrnm
            cases rest with
            | nil =>
              have hnone : skc_node_get_next st m = none := hchrest
              have hnxm : (nodeAt st m).next = 0 := by
                by_cases h0 : (nodeAt st m).next = 0
                · exact h0
                · rw [skc_node_get_next, if_neg h0] at hnone
                  cases hnone
              have hL : nextInList (subtree_leaves st m ++
                  ([] : List Nat).flatMap (fun m => subtree_leaves st m)) x' = none :=
                (nextInList_append_none hxm hnx).trans rfl
              have hgp : skc_node_get_parent st m = some j := by
                rw [skc_node_get_parent, hmpar, if_neg (by omega)]
              refine ⟨?_, ?_⟩
              · intro y' hy'
                rw [hL] at hy'
                cases hy'
              · intro _
                constructor
                · intro hrj
                  rw [hxc, next_leaf_ascend, if_neg (fun hh => hh hnxm), hgp]
                  show (if r = some j then none
                    else next_leaf_ascend st r SKC_NODE_MAX j) = none
                  rw [if_pos hrj]
                · intro hrj
                  rw [hxc, next_leaf_ascend, if_neg (fun hh => hh hnxm), hgp]
                  show (if r = some j then none
                    else next_leaf_ascend st r SKC_NODE_MAX j) =
                    next_leaf_ascend st r (SKC_NODE_MAX + 1) j
                  rw [if_neg hrj]
                  exact ascend_fuel h r SKC_NODE_MAX (SKC_NODE_MAX + 1) hj
                    (by omega) (by omega)
            | cons m2 rest2 =>
              have hsome : skc_node_get_next st m = some m2 := hchrest.1
              have hnxm : (nodeAt st m).next ≠ 0 := by
                intro h0
                rw [skc_node_get_next, if_pos h0] at hsome
                cases hsome
              obtain ⟨hkm2, hm2n, _, hjm2⟩ :=
                hmem m2 (List.mem_cons_of_mem m (List.mem_cons_self m2 rest2))
              have hne2 : subtree_leaves st m2 ≠ [] :=
                key_subtree_ne_nil h _ hm2n hkm2 (by omega)
              have hBh : ((m2 :: rest2).flatMap (fun m => subtree_leaves st m)).head? =
                  (subtree_leaves st m2).head? := by
                rw [List.flatMap_cons]
                exact head_append_ne_nil hne2
              have hL : nextInList (subtree_leaves st m ++
                  (m2 :: rest2).flatMap (fun m => subtree_leaves st m)) x' =
                  ((m2 :: rest2).flatMap (fun m => subtree_leaves st m)).head? :=
                nextInList_append_none hxm hnx
              have hasc : next_leaf_ascend st r (SKC_NODE_MAX + 1) x' = some m2 := by
                rw [hxc, next_leaf_ascend, if_pos hnxm]
                exact hsome
              have hdesc : next_leaf_descend st (SKC_NODE_MAX + 1) (some m2) =
                  (subtree_leaves st m2).head? :=
                descend_head h (SKC_NODE_MAX + 1) hm2n hkm2 (by omega)
              refine ⟨?_, ?_⟩
              · intro y' hy'
                rw [hL, hBh] at hy'
                rw [hasc, hdesc, hy']
              · intro h0
                rw [hL, hBh] at h0
                cases hsl : subtree_leaves st m2 with
                | nil => exact absurd hsl hne2
                | cons a t =>
                  rw [hsl] at h0
                  cases h0
        · have hxB : x' ∈ rest.flatMap (fun m => subtree_leaves st m) := by
            rcases List.mem_append.mp hx' with h0 | h0
            · exact absurd h0 hxm
            · exact h0
          have hrec := ihc (skc_node_get_next st m) hchrest
            (fun b hb => hmem b (List.mem_cons_of_mem m hb)) x' hxB
          have hLr : nextInList (subtree_leaves st m ++
              rest.flatMap (fun m => subtree_leaves st m)) x' =
              nextInList (rest.flatMap (fun m => subtree_leaves st m)) x' :=
            nextInList_append_right hxm
          refine ⟨?_, ?_⟩
          · intro y hy
            rw [hLr] at hy
            exact hrec.1 y hy
          · intro h0
            rw [hLr] at h0
            exact hrec.2 h0
    have hC : is_chain st (some (nodeAt st j).child)
        (chainList st (SKC_NODE_MAX + 1) (some (nodeAt st j).child)) :=
      is_chain_chainList h _ hcn (by omega)
    have hmemC : ∀ m ∈ chainList st (SKC_NODE_MAX + 1) (some (nodeAt st j).child),
        skc_node_is_key st m = true ∧ m < st.nodes.length ∧
          (nodeAt st m).parent = j ∧ j < m := by
      intro m hm
      obtain ⟨hcm, hmn, hpar, hkind⟩ := chain_invariants h _ hcn m hm
      exact ⟨hkind.trans hkc, hmn, hpar.trans hcpar, by omega⟩
    have main := chain_main _ (some (nodeAt st j).child) hC hmemC x (hsub ▸ hx)
    constructor
    · intro y hy
      rw [hsub] at hy
      exact main.1 y hy
    · intro h0
      rw [hsub] at h0
      exact ⟨fun hrj _ => (main.2 h0).1 hrj, fun hrj => (main.2 h0).2 hrj⟩


theorem nextInList_mem : ∀ {L : List Nat} {x y : Nat}, nextInList L x = some y → y ∈ L := by
  intro L
  induction L with
  | nil =>
    intro x y hx
    unfold nextInList at hx
    simp at hx
  | cons a t ih =>
    intro x y hxy
    unfold nextInList at hxy
    rw [List.dropWhile_cons] at hxy
    by_cases hax : (a != x) = true
    · rw [if_pos hax] at hxy
      have ht : nextInList t x = some y := hxy
      exact List.mem_cons_of_mem a (ih ht)
    · rw [if_neg hax] at hxy
      cases t with
      | nil => cases hxy
      | cons b t' =>
        have hby : some b = some y := hxy
        injection hby with hby
        exact List.mem_cons_of_mem a (hby ▸ List.mem_cons_self b t')

theorem top_chain_ascend {st : SkcState} (h : arena_ordered st) :
    ∀ (cl : List Nat) (strt : Option Nat),
      is_chain st strt cl →
      (∀ m ∈ cl, skc_node_is_key st m = true ∧ m < st.nodes.length ∧
        (nodeAt st m).parent = SKC_NODE_MAX) →
      ∀ x, x ∈ cl.flatMap (fun m => subtree_leaves st m) →
      (∀ y, nextInList (cl.flatMap (fun m => subtree_leaves st m)) x = some y →
        next_leaf_descend st (SKC_NODE_MAX + 1)
          (next_leaf_ascend st none (SKC_NODE_MAX + 1) x) = some y) ∧
      (nextInList (cl.flatMap (fun m => subtree_leaves st m)) x = none →
        next_leaf_ascend st none (SKC_NODE_MAX + 1) x = none) := by
  have h512 : SKC_NODE_MAX = 512 := rfl
  have hn512 : st.nodes.length ≤ SKC_NODE_MAX := h.1
  intro cl
  induction cl with
  | nil =>
    intro strt hch hmem x hx
    exact absurd hx (List.not_mem_nil x)
  | cons m rest ihc =>
    intro strt hch hmem x hx
    obtain ⟨hstrt, hchrest⟩ := hch
    obtain ⟨hkm, hmn, hmpar⟩ := hmem m (List.mem_cons_self m rest)
    rw [List.flatMap_cons] at hx ⊢
    by_cases hxm : x ∈ subtree_leaves st m
    · have Sm := subtree_ascend h (st.nodes.length - m) (Nat.le_refl _) hkm hmn hxm
        (Or.inl rfl)
      cases hnx : nextInList (subtree_leaves st m) x with
      | some y =>
        have hL : nextInList (subtree_leaves st m ++
            rest.flatMap (fun m => subtree_leaves st m)) x = some y :=
          nextInList_append_some hxm hnx
        constructor
        · intro y' hy'
          rw [hL] at hy'
          injection hy' with hyy
          rw [← hyy]
          exact Sm.1 y hnx
        · intro h0
          rw [hL] at h0
          cases h0
      | none =>
        have hrnm : (none : Option Nat) ≠ some m := by
          intro hh
          cases hh
        have hxc : next_leaf_ascend st none (SKC_NODE_MAX + 1) x =
            next_leaf_ascend st none (SKC_NODE_MAX + 1) m := (Sm.2 hnx).2 hrnm
        cases rest with
        | nil =>
          have hnone : skc_node_get_next st m = none := hchrest
          have hnxm : (nodeAt st m).next = 0 := by
            by_cases h0 : (nodeAt st m).next = 0
            · exact h0
            · rw [skc_node_get_next, if_neg h0] at hnone
              cases hnone
          have hL : nextInList (subtree_leaves st m ++
              ([] : List Nat).flatMap (fun m => subtree_leaves st m)) x = none :=
            (nextInList_append_none hxm hnx).trans rfl
          have hgp : skc_node_get_parent st m = none := by
            rw [skc_node_get_parent, hmpar, if_pos rfl]
          refine ⟨?_, ?_⟩
          · intro y' hy'
            rw [hL] at hy'
            cases hy'
          · intro _
            rw [hxc, next_leaf_ascend, if_neg (fun hh => hh hnxm), hgp]
        | cons m2 rest2 =>
          have hsome : skc_node_get_next st m = some m2 := hchrest.1
          have hnxm : (nodeAt st m).next ≠ 0 := by
            intro h0
            rw [skc_node_get_next, if_pos h0] at hsome
            cases hsome
          obtain ⟨hkm2, hm2n, _⟩ :=
            hmem m2 (List.mem_cons_of_mem m (List.mem_cons_self m2 rest2))
          have hne2 : subtree_leaves st m2 ≠ [] :=
            key_subtree_ne_nil h _ hm2n hkm2 (by omega)
          have hBh : ((m2 :: rest2).flatMap (fun m => subtree_leaves st m)).head? =
              (subtree_leaves st m2).head? := by
            rw [List.flatMap_cons]
            exact head_append_ne_nil hne2
          have hL : nextInList (subtree_leaves st m ++
              (m2 :: rest2).flatMap (fun m => subtree_leaves st m)) x =
              ((m2 :: rest2).flatMap (fun m => subtree_leaves st m)).head? :=
            nextInList_append_none hxm hnx
          have hasc : next_leaf_ascend st none (SKC_NODE_MAX + 1) x = some m2 := by
            rw [hxc, next_leaf_ascend, if_pos hnxm]
            exact hsome
          have hdesc : next_leaf_descend st (SKC_NODE_MAX + 1) (some m2) =
              (subtree_leaves st m2).head? :=
            descend_head h (SKC_NODE_MAX + 1) hm2n hkm2 (by omega)
          refine ⟨?_, ?_⟩
          · intro y' hy'
            rw [hL, hBh] at hy'
            rw [hasc, hdesc, hy']
          · intro h0
            rw [hL, hBh] at h0
            cases hsl : subtree_leaves st m2 with
            | nil => exact absurd hsl hne2
            | cons a t =>
              rw [hsl] at h0
              cases h0
    · have hxB : x ∈ rest.flatMap (fun m => subtree_leaves st m) := by
        rcases List.mem_append.mp hx with h0 | h0
        · exact absurd h0 hxm
        · exact h0
      have hrec := ihc (skc_node_get_next st m) hchrest
        (fun b hb => hmem b (List.mem_cons_of_mem m hb)) x hxB
      have hLr : nextInList (subtree_leaves st m ++
          rest.flatMap (fun m => subtree_leaves st m)) x =
          nextInList (rest.flatMap (fun m => subtree_leaves st m)) x :=
        nextInList_append_right hxm
      refine ⟨?_, ?_⟩
      · intro y hy
        rw [hLr] at hy
        exact hrec.1 y hy
      · intro h0
        rw [hLr] at h0
        exact hrec.2 h0


theorem next_leaf_start {st : SkcState} {root : Option Nat} (h : arena_ordered st)
    (hdata : st.dataSet = true)
    (hroot : match root with
      | some r => skc_node_is_key st r = true ∧ r < st.nodes.length
      | none => 0 < st.nodes.length ∧ skc_node_is_key st 0 = true) :
    skc_node_find_next_leaf st root none = (preorder_leaves st root).head? := by
  have h512 : SKC_NODE_MAX = 512 := rfl
  have hn512 : st.nodes.length ≤ SKC_NODE_MAX := h.1
  rw [skc_node_find_next_leaf.eq_def, if_neg (by simp [hdata])]
  cases root with
  | some r =>
    obtain ⟨hkr, hrn⟩ := hroot
    show next_leaf_descend st (SKC_NODE_MAX + 1) (some r) = (subtree_leaves st r).head?
    exact descend_head h (SKC_NODE_MAX + 1) hrn hkr (by omega)
  | none =>
    obtain ⟨h0n, hk0⟩ := hroot
    show next_leaf_descend st (SKC_NODE_MAX + 1) (some 0) =
      ((chainList st (SKC_NODE_MAX + 1) (some 0)).flatMap
        (fun m => subtree_leaves st m)).head?
    have hne0 : subtree_leaves st 0 ≠ [] :=
      key_subtree_ne_nil h (SKC_NODE_MAX + 1) h0n hk0 (by omega)
    rw [chainList, List.flatMap_cons, head_append_ne_nil hne0]
    exact (descend_head h (SKC_NODE_MAX + 1) h0n hk0 (by omega) :
      next_leaf_descend st (SKC_NODE_MAX + 1) (some 0) = (subtree_leaves st 0).head?)

theorem next_leaf_step {st : SkcState} {root : Option Nat} (h : arena_ordered st)
    (hdata : st.dataSet = true)
    (hroot : match root with
      | some r => skc_node_is_key st r = true ∧ r < st.nodes.length
      | none => 0 < st.nodes.length ∧ skc_node_is_key st 0 = true) :
    ∀ x ∈ preorder_leaves st root,
      skc_node_find_next_leaf st root (some x) =
        nextInList (preorder_leaves st root) x := by
  have h512 : SKC_NODE_MAX = 512 := rfl
  have hn512 : st.nodes.length ≤ SKC_NODE_MAX := h.1
  cases root with
  | some r =>
    obtain ⟨hkr, hrn⟩ := hroot
    intro x hx
    rw [skc_node_find_next_leaf.eq_def, if_neg (by simp [hdata])]
    show (if some r = some x then none
      else next_leaf_descend st (SKC_NODE_MAX + 1)
        (next_leaf_ascend st (some r) (SKC_NODE_MAX + 1) x)) =
      nextInList (subtree_leaves st r) x
    by_cases hxr : r = x
    · rw [if_pos (by rw [hxr])]
      subst hxr
      have hlf : skc_node_is_leaf st r = true :=
        ((subtree_leaves_mem h (SKC_NODE_MAX + 1) hrn r hx).1)
      have hone : subtree_leaves st r = [r] := by
        rw [subtree_leaves, subtree_leaves_f, if_pos hlf]
      rw [hone, nextInList_singleton]
    · rw [if_neg (fun hh => hxr (by injection hh))]
      have S := subtree_ascend h (st.nodes.length - r) (Nat.le_refl _) hkr hrn hx
        (Or.inr ⟨r, rfl, Nat.le_refl r⟩)
      cases hnx : nextInList (subtree_leaves st r) x with
      | some y => exact S.1 y hnx
      | none =>
        rw [(S.2 hnx).1 rfl (fun hh => hxr hh.symm)]
        exact descend_none st (SKC_NODE_MAX + 1)
  | none =>
    obtain ⟨h0n, hk0⟩ := hroot
    intro x hx
    rw [skc_node_find_next_leaf.eq_def, if_neg (by simp [hdata])]
    show (if none = some x then none
      else next_leaf_descend st (SKC_NODE_MAX + 1)
        (next_leaf_ascend st none (SKC_NODE_MAX + 1) x)) =
      nextInList ((chainList st (SKC_NODE_MAX + 1) (some 0)).flatMap
        (fun m => subtree_leaves st m)) x
    rw [if_neg (fun hh => by cases hh)]
    have hpar0 : (nodeAt st 0).parent = SKC_NODE_MAX := by
      rcases ao_parent h h0n with h0 | h0
      · exact h0
      · omega
    have hC : is_chain st (some 0) (chainList st (SKC_NODE_MAX + 1) (some 0)) :=
      is_chain_chainList h (SKC_NODE_MAX + 1) h0n (by omega)
    have hmemC : ∀ m ∈ chainList st (SKC_NODE_MAX + 1) (some 0),
        skc_node_is_key st m = true ∧ m < st.nodes.length ∧
          (nodeAt st m).parent = SKC_NODE_MAX := by
      intro m hm
      obtain ⟨_, hmn, hpar, hkind⟩ := chain_invariants h (SKC_NODE_MAX + 1) h0n m hm
      exact ⟨hkind.trans hk0, hmn, hpar.trans hpar0⟩
    have T := top_chain_ascend h _ (some 0) hC hmemC x hx
    cases hnx : nextInList ((chainList st (SKC_NODE_MAX + 1) (some 0)).flatMap
        (fun m => subtree_leaves st m)) x with
    | some y => exact T.1 y hnx
    | none =>
      rw [T.2 hnx]
      exact descend_none st (SKC_NODE_MAX + 1)



/-- C8: counterexample to the composition/stability claim as stated.  On the
tree parsed from `a { b = 1; c = 2; }` (pre-order leaves of key `a`: nodes 1
and 3), advancing from the last leaf 3 yields none, but composing the calls —
`next_leaf(root, next_leaf(root, 3))` = `next_leaf(root, none)` — restarts the
traversal and returns the *first* leaf again instead of the none that "two
steps past the last leaf" demands, so repeated composed calls do not keep
returning none. -/
theorem c8_restart_after_last :
    preorder_leaves exBrace (some 0) = [1, 3] ∧
    skc_node_find_next_leaf exBrace (some 0) (some 3) = none ∧
    skc_node_find_next_leaf exBrace (some 0) none = some 1 :=
  ⟨rfl, rfl, rfl⟩

/-- C8 (amended): on ordered arenas whose traversal root is a key node,
`skc_node_find_next_leaf` enumerates `preorder_leaves`: the first call (cursor
none) returns the head of the pre-order leaf list; a call on a leaf of the
list returns its successor in the list; hence while the traversal has not
ended (`next_leaf(root, x) = some y`), one more call lands on the leaf two
steps after `x`; and a call on the last leaf returns none (stably so for the
*same* argument — but feeding the none result back restarts the traversal,
see the counterexample). -/
theorem c8_amended (st : SkcState) (root : Option Nat)
    (h : arena_ordered st) (hdata : st.dataSet = true)
    (hroot : match root with
      | some r => skc_node_is_key st r = true ∧ r < st.nodes.length
      | none => 0 < st.nodes.length ∧ skc_node_is_key st 0 = true) :
    skc_node_find_next_leaf st root none = (preorder_leaves st root).head? ∧
    (∀ x ∈ preorder_leaves st root,
      skc_node_find_next_leaf st root (some x) =
        nextInList (preorder_leaves st root) x) ∧
    (∀ x y, x ∈ preorder_leaves st root →
      skc_node_find_next_leaf st root (some x) = some y →
      skc_node_find_next_leaf st root (some y) =
        nextInList (preorder_leaves st root) y) ∧
    (∀ x ∈ preorder_leaves st root, nextInList (preorder_leaves st root) x = none →
      skc_node_find_next_leaf st root (some x) = none) := by
  refine ⟨next_leaf_start h hdata hroot, next_leaf_step h hdata hroot, ?_, ?_⟩
  · intro x y hx hxy
    have hy : y ∈ preorder_leaves st root := by
      rw [next_leaf_step h hdata hroot x hx] at hxy
      exact nextInList_mem hxy
    exact next_leaf_step h hdata hroot y hy
  · intro x hx h0
    rw [next_leaf_step h hdata hroot x hx, h0]

/-- Witness: the amended C8 theorem applied to the arena of
`a { b = 1; c = 2; }` with the whole tree as root. -/
theorem c8_amended_witness :
    arena_ordered exBrace ∧ exBrace.dataSet = true ∧
    (0 < exBrace.nodes.length ∧ skc_node_is_key exBrace 0 = true) ∧
    (skc_node_find_next_leaf exBrace none none =
        (preorder_leaves exBrace none).head? ∧
      (∀ x ∈ preorder_leaves exBrace none,
        skc_node_find_next_leaf exBrace none (some x) =
          nextInList (preorder_leaves exBrace none) x) ∧
      (∀ x y, x ∈ preorder_leaves exBrace none →
        skc_node_find_next_leaf exBrace none (some x) = some y →
        skc_node_find_next_leaf exBrace none (some y) =
          nextInList (preorder_leaves exBrace none) y) ∧
      (∀ x ∈ preorder_leaves exBrace none,
        nextInList (preorder_leaves exBrace none) x = none →
        skc_node_find_next_leaf exBrace none (some x) = none)) :=
  ⟨by decide, rfl, ⟨by decide, rfl⟩,
    c8_amended exBrace none (by decide) rfl ⟨by decide, rfl⟩⟩


end Skc
